import Mathlib

/-!
# bplus: tree head, mutation facade, range queries, compaction, default comparator

A shallow embedding of `src/bplus.c`.  The page store and the file writer are
collaborators whose code is elsewhere; they are taken as the fields of an
environment `Env`, and every call the embedded functions make to them is
recorded in a list of `Call`s, so that statements such as "no head-slot write
happens" are statements about that list.
-/

namespace Bplus

/-! ## Machine integers and bytes -/

/-- One byte of memory (a `char` seen through `uint8_t`). -/
abbrev Byte := Fin 256

/-- Conversion of an unsigned value to a 32-bit `int`: the value is reduced
modulo `2^32` and read as two's complement (the conversion every mainstream
compiler performs for an out-of-range value). -/
def toInt32 (x : Nat) : Int :=
  if x % 2 ^ 32 < 2 ^ 31 then ((x % 2 ^ 32 : Nat) : Int) else ((x % 2 ^ 32 : Nat) : Int) - 2 ^ 32

/-- Subtraction of two `uint64_t` values. -/
def sub64 (x y : Nat) : Nat := (x % 2 ^ 64 + 2 ^ 64 - y % 2 ^ 64) % 2 ^ 64

/-- Byte `k` (counted from the least significant one) of a number. -/
def byteOf (x k : Nat) : Byte := ⟨x / 2 ^ (8 * k) % 256, Nat.mod_lt _ (by decide)⟩

/-- The eight bytes of a 64-bit value, most significant first. -/
def be64 (x : Nat) : List Byte :=
  [byteOf x 7, byteOf x 6, byteOf x 5, byteOf x 4, byteOf x 3, byteOf x 2, byteOf x 1, byteOf x 0]

/-- The number whose big-endian digits are the given bytes. -/
def beVal (bs : List Byte) : Nat := bs.foldl (fun acc b => acc * 256 + b.val) 0

/-- Byte order of the machine the program runs on. -/
inductive Endian
  | little
  | big
deriving DecidableEq, Repr

/-- Memory image of a `uint64_t` object holding `x` on the given machine. -/
def hostBytes (e : Endian) (x : Nat) : List Byte :=
  match e with
  | .big => be64 x
  | .little => (be64 x).reverse

/-- Value of a `uint64_t` object whose memory image is `bs`. -/
def hostVal (e : Endian) (bs : List Byte) : Nat :=
  match e with
  | .big => beVal bs
  | .little => beVal bs.reverse

/-- Reversal of the eight bytes of a 64-bit value. -/
def bswap64 (x : Nat) : Nat := beVal (be64 x).reverse

/-- Modelled from the spec: `htonll` of `private/utils.h`, which is not among the
sources.  The spec says the head fields are encoded big-endian, so the
conversion is the identity on a big-endian machine and a byte swap on a
little-endian one. -/
def htonll (e : Endian) (x : Nat) : Nat :=
  match e with
  | .big => x % 2 ^ 64
  | .little => bswap64 x

/-- Modelled from the spec: `ntohll` of `private/utils.h`, the inverse
conversion (big-endian to host order). -/
def ntohll (e : Endian) (x : Nat) : Nat :=
  match e with
  | .big => x % 2 ^ 64
  | .little => bswap64 x

/-! ## Constants of the headers -/

/-- Modelled from the spec: the success code `BP_OK` of `private/errors.h`, which
is not among the sources; the spec calls it `Ok`, and it is the zero every
`ret != BP_OK` test of the sources compares with. -/
def BP_OK : Int := 0

/-- Modelled from the spec: `BP__HEAD_SIZE`, the size of the head slot: four
8-byte fields, 32 bytes. -/
def BP__HEAD_SIZE : Nat := 32

/-- Page kinds (`kLeaf` is the one `bplus.c` names). -/
inductive bp__page_type
  | kPage
  | kLeaf
deriving DecidableEq, Repr

/-- Writer paths (`kNotCompressed` is the one `bplus.c` names). -/
inductive bp__comp_type
  | kNotCompressed
  | kCompressed
deriving DecidableEq, Repr

/-! ## Data model -/

/-- A key (`bp_key_t` of the header `bplus.h`): an explicit length, a `uint64_t`,
and the bytes its pointer refers to. -/
structure bp_key_t where
  length : Nat
  value : List Byte
deriving DecidableEq, Repr

/-- Values have the same fields as keys. -/
abbrev bp_value_t := bp_key_t

/-- The buffer of a key holds at least `length` bytes. -/
def bp_key_t.wf (k : bp_key_t) : Prop := k.length ≤ k.value.length

/-- The bytes of a key: the first `length` bytes of its buffer. -/
def bp_key_t.bytes (k : bp_key_t) : List Byte := k.value.take k.length

/-- The part of a page `bplus.c` reads: its position and descriptor. -/
structure bp__page_t where
  offset : Nat
  config : Nat
deriving DecidableEq, Repr

/-- The tree head: four 64-bit fields and the in-memory root page (`NULL` is `none`). -/
structure bp__tree_head_t where
  offset : Nat
  config : Nat
  page_size : Nat
  hash : Nat
  page : Option bp__page_t
deriving DecidableEq, Repr

/-- A tree instance: the writer part `W` (file handle and file state, private to
the writer), the head and the comparator. -/
structure bp_tree_t (W : Type) where
  writer : W
  head : bp__tree_head_t
  compare_cb : bp_key_t → bp_key_t → Int

/-- Filter callbacks. -/
abbrev bp_filter_cb := bp_key_t → Int

/-- A call made to a collaborator, with its arguments and the status it returned. -/
inductive Call
  | writer_create (filename : String) (ret : Int)
  | writer_find (comp : bp__comp_type) (size : Nat) (ret : Int)
  | writer_write (comp : bp__comp_type) (data : List Byte) (size : Nat) (ret : Int)
  | writer_compact_name (ret : Int)
  | writer_compact_finalize (ret : Int)
  | page_create (page_size : Nat) (type : bp__page_type) (offset config : Nat) (ret : Int)
  | page_load (offset config : Nat) (ret : Int)
  | page_get (root : Option bp__page_t) (key : bp_key_t) (ret : Int)
  | page_insert (root : Option bp__page_t) (key : bp_key_t) (value : bp_value_t) (ret : Int)
  | page_remove (root : Option bp__page_t) (key : bp_key_t) (ret : Int)
  | page_get_range (root : Option bp__page_t) (start stop : bp_key_t) (ret : Int)
  | page_copy (page : bp__page_t) (ret : Int)
deriving DecidableEq, Repr

/-- Status returned by a recorded call. -/
def Call.ret : Call → Int
  | .writer_create _ r => r
  | .writer_find _ _ r => r
  | .writer_write _ _ _ r => r
  | .writer_compact_name r => r
  | .writer_compact_finalize r => r
  | .page_create _ _ _ _ r => r
  | .page_load _ _ r => r
  | .page_get _ _ r => r
  | .page_insert _ _ _ r => r
  | .page_remove _ _ r => r
  | .page_get_range _ _ _ r => r
  | .page_copy _ r => r

/-- Which collaborator function a recorded call went to. -/
inductive CallKind
  | writer_create
  | writer_find
  | writer_write
  | writer_compact_name
  | writer_compact_finalize
  | page_create
  | page_load
  | page_get
  | page_insert
  | page_remove
  | page_get_range
  | page_copy
deriving DecidableEq, Repr

/-- The function a recorded call went to. -/
def Call.kind : Call → CallKind
  | .writer_create _ _ => .writer_create
  | .writer_find _ _ _ => .writer_find
  | .writer_write _ _ _ _ => .writer_write
  | .writer_compact_name _ => .writer_compact_name
  | .writer_compact_finalize _ => .writer_compact_finalize
  | .page_create _ _ _ _ _ => .page_create
  | .page_load _ _ _ => .page_load
  | .page_get _ _ _ => .page_get
  | .page_insert _ _ _ _ => .page_insert
  | .page_remove _ _ _ => .page_remove
  | .page_get_range _ _ _ _ => .page_get_range
  | .page_copy _ _ => .page_copy

/-- A head-slot write: a write through the writer. -/
def Call.isHeadWrite : Call → Bool
  | .writer_write _ _ _ _ => true
  | _ => false

/-- Number of head-slot writes among recorded calls. -/
def headWrites (cs : List Call) : Nat := (cs.filter Call.isHeadWrite).length

/-- What a function leaves behind: the tree, the returned status and the calls
it made to the collaborators, in order. -/
structure Outcome (W : Type) where
  tree : bp_tree_t W
  ret : Int
  calls : List Call

/-- The collaborators of `bplus.c`: the machine's byte order, the checksum of
`private/utils.h`, the file writer and the page store.  A function taking the
tree pointer returns the tree as it leaves it; a function filling a page through
an out-pointer returns that page, which is meaningful when the status is
`BP_OK`; a writer function sees the writer part only.  `Cb` is the type of
range callbacks. -/
structure Env (W Cb : Type) where
  host : Endian
  compute_hashl : Nat → Nat
  writer_create : W → String → W × Int
  writer_find : bp_tree_t W → bp__comp_type → Nat →
    (bp_tree_t W → List Byte → bp_tree_t W × Int) →
    (bp_tree_t W → bp_tree_t W × Int) → bp_tree_t W × Int
  writer_write : W → bp__comp_type → List Byte → Nat → W × Int
  writer_compact_name : W → W × Int × String
  writer_compact_finalize : W → W → W × W × Int
  page_create : bp_tree_t W → bp__page_type → Nat → Nat → bp_tree_t W × Int × bp__page_t
  page_load : bp_tree_t W → Nat → Nat → bp_tree_t W × Int × bp__page_t
  page_get : bp_tree_t W → Option bp__page_t → bp_key_t → bp_tree_t W × Int × bp_value_t
  page_insert : bp_tree_t W → Option bp__page_t → bp_key_t → bp_value_t → bp_tree_t W × Int
  page_remove : bp_tree_t W → Option bp__page_t → bp_key_t → bp_tree_t W × Int
  page_get_range : bp_tree_t W → Option bp__page_t → bp_key_t → bp_key_t →
    bp_filter_cb → Cb → bp_tree_t W × Int
  page_copy : bp_tree_t W → bp_tree_t W → bp__page_t →
    bp_tree_t W × bp_tree_t W × bp__page_t × Int

variable {W Cb : Type}

/-! ## Tree head manager -/

/-- The `i`-th 8-byte field of a head record, as the machine reads it. -/
def field64 (e : Endian) (data : List Byte) (i : Nat) : Nat :=
  hostVal e ((data.drop (8 * i)).take 8)

/-- Lines 219-222 of `bp__tree_read_head`: the four fields of the record are
converted to host order and stored in the head. -/
def decode_head (E : Env W Cb) (t : bp_tree_t W) (data : List Byte) : bp_tree_t W :=
  { t with head :=
      { t.head with
        offset := ntohll E.host (field64 E.host data 0)
        config := ntohll E.host (field64 E.host data 1)
        page_size := ntohll E.host (field64 E.host data 2)
        hash := ntohll E.host (field64 E.host data 3) } }

/-- Source function `bp__tree_read_head`: decode the record, check the hash, load the root. -/
def bp__tree_read_head (E : Env W Cb) (t : bp_tree_t W) (data : List Byte) : Outcome W :=
  let t1 := decode_head E t data
  if E.compute_hashl t1.head.offset ≠ t1.head.hash then
    ⟨t1, 1, []⟩
  else
    let l := E.page_load t1 t1.head.offset t1.head.config
    if l.2.1 = BP_OK then
      ⟨{ l.1 with head := { l.1.head with page := some l.2.2 } }, l.2.1,
        [.page_load t1.head.offset t1.head.config l.2.1]⟩
    else
      ⟨l.1, l.2.1, [.page_load t1.head.offset t1.head.config l.2.1]⟩

/-- The head record in the memory layout handed to the writer: the four fields,
each converted with `htonll`, as the machine stores them. -/
def nhead_bytes (e : Endian) (h : bp__tree_head_t) : List Byte :=
  hostBytes e (htonll e h.offset) ++ hostBytes e (htonll e h.config) ++
    hostBytes e (htonll e h.page_size) ++ hostBytes e (htonll e h.hash)

/-- Lines 250-269 of `bp__tree_write_head`, for a tree whose root page is `p`:
the head takes the root's position, the hash is recomputed and the record is
written through the not-compressed path. -/
def write_head_at (E : Env W Cb) (t : bp_tree_t W) (p : bp__page_t) (pre : List Call) :
    Outcome W :=
  let h1 := { t.head with offset := p.offset, config := p.config }
  let h2 := { h1 with hash := E.compute_hashl h1.offset }
  let w := E.writer_write t.writer .kNotCompressed (nhead_bytes E.host h2) BP__HEAD_SIZE
  ⟨{ t with writer := w.1, head := h2 }, w.2,
    pre ++ [.writer_write .kNotCompressed (nhead_bytes E.host h2) BP__HEAD_SIZE w.2]⟩

/-- Source function `bp__tree_write_head` (its `data` argument is never read). -/
def bp__tree_write_head (E : Env W Cb) (t : bp_tree_t W) : Outcome W :=
  match t.head.page with
  | none =>
    let t1 := { t with head := { t.head with page_size := 64 } }
    let c := E.page_create t1 .kLeaf 0 0
    let ev := Call.page_create t1.head.page_size .kLeaf 0 0 c.2.1
    if c.2.1 ≠ BP_OK then ⟨c.1, c.2.1, [ev]⟩
    else
      write_head_at E { c.1 with head := { c.1.head with page := some c.2.2 } } c.2.2 [ev]
  | some p => write_head_at E t p []

/-! ## Opening a tree -/

/-- Source function `bp__default_filter_cb`: the default filter accepts all keys. -/
def bp__default_filter_cb (_key : bp_key_t) : Int := 1

/-- The loop of `bp__default_compare_cb`: `n` iterations starting at index `i`;
`some r` when a differing byte makes the function return `r`, `none` when the
loop runs to its end. -/
def compare_loop (a b : bp_key_t) : Nat → Nat → Option Int
  | 0, _ => none
  | n + 1, i =>
    if a.value.getD i 0 ≠ b.value.getD i 0 then
      some (if a.value.getD i 0 > b.value.getD i 0 then 1 else -1)
    else compare_loop a b n (i + 1)

/-- Source function `bp__default_compare_cb`.  `len` is a `uint32_t`, so the
smaller length is reduced modulo `2^32`; the returned length difference is a
`uint64_t` converted to `int`. -/
def bp__default_compare_cb (a b : bp_key_t) : Int :=
  let len := (if a.length < b.length then a.length else b.length) % 2 ^ 32
  match compare_loop a b len 0 with
  | some r => r
  | none => toInt32 (sub64 a.length b.length)

/-- Source function `bp_set_compare_cb`. -/
def bp_set_compare_cb (tree : bp_tree_t W) (cb : bp_key_t → bp_key_t → Int) : bp_tree_t W :=
  { tree with compare_cb := cb }

/-- Source function `bp_open`.  The calls the two head callbacks make while the
writer runs them inside `bp__writer_find` belong to the writer and are not
recorded. -/
def bp_open (E : Env W Cb) (tree : bp_tree_t W) (filename : String) : Outcome W :=
  let c := E.writer_create tree.writer filename
  let t1 := { tree with writer := c.1 }
  if c.2 ≠ BP_OK then ⟨t1, c.2, [.writer_create filename c.2]⟩
  else
    let t2 := { t1 with head := { t1.head with page := none } }
    let f := E.writer_find t2 .kNotCompressed BP__HEAD_SIZE
      (fun t d => ((bp__tree_read_head E t d).tree, (bp__tree_read_head E t d).ret))
      (fun t => ((bp__tree_write_head E t).tree, (bp__tree_write_head E t).ret))
    let evs := [Call.writer_create filename c.2, Call.writer_find .kNotCompressed BP__HEAD_SIZE f.2]
    if f.2 ≠ BP_OK then ⟨f.1, f.2, evs⟩
    else ⟨bp_set_compare_cb f.1 bp__default_compare_cb, BP_OK, evs⟩

/-! ## Mutation facade -/

/-- Source function `bp_get`; the second component is the value the page store
leaves in `*value`. -/
def bp_get (E : Env W Cb) (tree : bp_tree_t W) (key : bp_key_t) : Outcome W × bp_value_t :=
  let g := E.page_get tree tree.head.page key
  (⟨g.1, g.2.1, [.page_get tree.head.page key g.2.1]⟩, g.2.2)

/-- Source function `bp_set`. -/
def bp_set (E : Env W Cb) (tree : bp_tree_t W) (key : bp_key_t) (value : bp_value_t) :
    Outcome W :=
  let i := E.page_insert tree tree.head.page key value
  let ev := Call.page_insert tree.head.page key value i.2
  if i.2 ≠ BP_OK then ⟨i.1, i.2, [ev]⟩
  else
    let w := bp__tree_write_head E i.1
    ⟨w.tree, w.ret, ev :: w.calls⟩

/-- Source function `bp_remove`. -/
def bp_remove (E : Env W Cb) (tree : bp_tree_t W) (key : bp_key_t) : Outcome W :=
  let i := E.page_remove tree tree.head.page key
  let ev := Call.page_remove tree.head.page key i.2
  if i.2 ≠ BP_OK then ⟨i.1, i.2, [ev]⟩
  else
    let w := bp__tree_write_head E i.1
    ⟨w.tree, w.ret, ev :: w.calls⟩

/-! ## Compaction -/

/-- Source function `bp_compact`.  `compacted` is the indeterminate initial
content of the local tree object; the result is `none` when the function
dereferences a `NULL` root page (`head_page->offset` on a tree without root).
The returned tree is the caller's one; the compacted tree is a local. -/
def bp_compact (E : Env W Cb) (tree compacted : bp_tree_t W) : Option (Outcome W) :=
  let n := E.writer_compact_name tree.writer
  let t1 := { tree with writer := n.1 }
  let ev1 := [Call.writer_compact_name n.2.1]
  if n.2.1 ≠ BP_OK then some ⟨t1, n.2.1, ev1⟩
  else
    let o := bp_open E compacted n.2.2
    let ev2 := ev1 ++ o.calls
    if o.ret ≠ BP_OK then some ⟨t1, o.ret, ev2⟩
    else
      match t1.head.page with
      | none => none
      | some head_page =>
        let l := E.page_load t1 head_page.offset head_page.config
        let ev3 := ev2 ++ [Call.page_load head_page.offset head_page.config l.2.1]
        if l.2.1 ≠ BP_OK then some ⟨l.1, l.2.1, ev3⟩
        else
          let c := E.page_copy l.1 o.tree l.2.2
          let ev4 := ev3 ++ [Call.page_copy l.2.2 c.2.2.2]
          if c.2.2.2 ≠ BP_OK then some ⟨c.1, c.2.2.2, ev4⟩
          else
            let c1 := { c.2.1 with head := { c.2.1.head with page := some c.2.2.1 } }
            let w := bp__tree_write_head E c1
            let ev5 := ev4 ++ w.calls
            if w.ret ≠ BP_OK then some ⟨c.1, w.ret, ev5⟩
            else
              let f := E.writer_compact_finalize c.1.writer w.tree.writer
              some ⟨{ c.1 with writer := f.1 }, f.2.2,
                ev5 ++ [Call.writer_compact_finalize f.2.2]⟩

/-! ## String wrappers -/

/-- Library function `strlen`: the number of bytes before the first NUL of the
buffer a C string pointer refers to. -/
def strlen (p : List Byte) : Nat := (p.takeWhile (fun c => c ≠ 0)).length

/-- Source function `bp_gets`; the second component is what `*value` receives
(`none`: it is left untouched). -/
def bp_gets (E : Env W Cb) (tree : bp_tree_t W) (key : List Byte) :
    Outcome W × Option (List Byte) :=
  let bkey : bp_key_t := { value := key, length := (strlen key + 1) % 2 ^ 64 }
  let g := bp_get E tree bkey
  if g.1.ret ≠ BP_OK then (g.1, none)
  else (⟨g.1.tree, BP_OK, g.1.calls⟩, some g.2.value)

/-- Source function `bp_sets`. -/
def bp_sets (E : Env W Cb) (tree : bp_tree_t W) (key value : List Byte) : Outcome W :=
  let bkey : bp_key_t := { value := key, length := (strlen key + 1) % 2 ^ 64 }
  let bvalue : bp_value_t := { value := value, length := (strlen value + 1) % 2 ^ 64 }
  bp_set E tree bkey bvalue

/-- Source function `bp_removes`. -/
def bp_removes (E : Env W Cb) (tree : bp_tree_t W) (key : List Byte) : Outcome W :=
  let bkey : bp_key_t := { value := key, length := (strlen key + 1) % 2 ^ 64 }
  bp_remove E tree bkey

/-! ## Range queries -/

/-- Source function `bp_get_filtered_range`. -/
def bp_get_filtered_range (E : Env W Cb) (tree : bp_tree_t W) (start stop : bp_key_t)
    (filter : bp_filter_cb) (cb : Cb) : Outcome W :=
  let r := E.page_get_range tree tree.head.page start stop filter cb
  ⟨r.1, r.2, [.page_get_range tree.head.page start stop r.2]⟩

/-- Source function `bp_get_filtered_ranges`. -/
def bp_get_filtered_ranges (E : Env W Cb) (tree : bp_tree_t W) (start stop : List Byte)
    (filter : bp_filter_cb) (cb : Cb) : Outcome W :=
  let bstart : bp_key_t := { value := start, length := (strlen start + 1) % 2 ^ 64 }
  let bend : bp_key_t := { value := stop, length := (strlen stop + 1) % 2 ^ 64 }
  bp_get_filtered_range E tree bstart bend filter cb

/-- Source function `bp_get_range`. -/
def bp_get_range (E : Env W Cb) (tree : bp_tree_t W) (start stop : bp_key_t) (cb : Cb) :
    Outcome W :=
  bp_get_filtered_range E tree start stop bp__default_filter_cb cb

/-- Source function `bp_get_ranges`. -/
def bp_get_ranges (E : Env W Cb) (tree : bp_tree_t W) (start stop : List Byte) (cb : Cb) :
    Outcome W :=
  bp_get_filtered_ranges E tree start stop bp__default_filter_cb cb

/-! ## Reference definitions used in the statements -/

/-- The head record as the spec lays it out: the big-endian 64-bit encodings of
`offset`, `config`, `page_size`, `hash`, in that order. -/
def head_record (offset config page_size hash : Nat) : List Byte :=
  be64 offset ++ be64 config ++ be64 page_size ++ be64 hash

/-- The `i`-th 8-byte field of a record, decoded big-endian. -/
def be_field (data : List Byte) (i : Nat) : Nat := beVal ((data.drop (8 * i)).take 8)

/-- A byte with bit `b` inverted. -/
def flipByte (x : Byte) (b : Nat) : Byte := ⟨(x.val ^^^ 2 ^ b) % 256, Nat.mod_lt _ (by decide)⟩

/-- A record with its bit `k` inverted (bit `k` lies in byte `k / 8`). -/
def flipBit (data : List Byte) (k : Nat) : List Byte :=
  data.set (k / 8) (flipByte (data.getD (k / 8) 0) (k % 8))

/-- The head invariant: the head points at its root page and carries the
checksum of its offset. -/
def HeadInv (E : Env W Cb) (h : bp__tree_head_t) : Prop :=
  ∃ p, h.page = some p ∧ h.offset = p.offset ∧ h.config = p.config ∧
    h.hash = E.compute_hashl h.offset

/-- The status of the page creation Store asks for on a tree without root page. -/
def createStatus (E : Env W Cb) (t : bp_tree_t W) : Int :=
  (E.page_create { t with head := { t.head with page_size := 64 } } .kLeaf 0 0).2.1

/-- Store reaches its write: the root page exists or its creation succeeds. -/
def reachesWrite (E : Env W Cb) (t : bp_tree_t W) : Prop :=
  t.head.page ≠ none ∨ createStatus E t = BP_OK

/-- The page copy of `bp_compact` on a tree whose root page is `head_page`: what
`bp__page_copy` returns when called, as `bp_compact` calls it, with the tree as
the reload of the snapshot root left it, the freshly opened compacted tree and
the reloaded root.  Its components are the tree, the compacted tree, the copied
root page as the copy leaves it, and the status. -/
def compactCopy (E : Env W Cb) (tree compacted : bp_tree_t W) (head_page : bp__page_t) :
    bp_tree_t W × bp_tree_t W × bp__page_t × Int :=
  E.page_copy
    (E.page_load { tree with writer := (E.writer_compact_name tree.writer).1 }
      head_page.offset head_page.config).1
    (bp_open E compacted (E.writer_compact_name tree.writer).2.2).tree
    (E.page_load { tree with writer := (E.writer_compact_name tree.writer).1 }
      head_page.offset head_page.config).2.2

/-- The order in which `bp_compact` goes through its steps: derive the compact
name, open the new tree (create the writer, find the head), reload the
snapshot root, copy the pages, write the new tree's head, finalize. -/
def compactOrder : List CallKind :=
  [.writer_compact_name, .writer_create, .writer_find, .page_load, .page_copy, .writer_write,
    .writer_compact_finalize]

/-- Lexicographic comparison of byte sequences as the spec words it: the first
differing byte decides, and the shorter sequence is less when it is a prefix of
the other. -/
def lexOrder : List Byte → List Byte → Ordering
  | [], [] => .eq
  | [], _ :: _ => .lt
  | _ :: _, [] => .gt
  | x :: xs, y :: ys => if x < y then .lt else if y < x then .gt else lexOrder xs ys

/-- The sign of an `int` result. -/
def signOf (r : Int) : Ordering := if r < 0 then .lt else if r = 0 then .eq else .gt

/-- The result decided by the first position at which two byte sequences
differ, if there is one within the shorter of them. -/
def firstDiff : List Byte → List Byte → Option Int
  | x :: xs, y :: ys => if x ≠ y then some (if x > y then 1 else -1) else firstDiff xs ys
  | _, _ => none

/-- Library function `strcmp` on the buffers two C string pointers refer to:
unsigned byte-wise comparison up to the first difference or the NUL. -/
def strcmp : List Byte → List Byte → Int
  | a :: as, b :: bs =>
    if a ≠ b then (if a < b then -1 else 1) else if a = 0 then 0 else strcmp as bs
  | _, _ => 0

/-- The key of a C string: the buffer the pointer refers to, with length
`strlen + 1`, so that the bytes of the key are the string and its NUL. -/
def cstr_key (p : List Byte) : bp_key_t := { value := p, length := (strlen p + 1) % 2 ^ 64 }

/-- A key of 2^31 zero bytes. -/
def bigKey : bp_key_t := ⟨2 ^ 31, List.replicate (2 ^ 31) 0⟩

/-- The empty key. -/
def emptyKey : bp_key_t := ⟨0, []⟩

/-! ## A small concrete environment

An in-memory writer that keeps the list of records written (latest first), a
page store that accepts everything except the empty key, and a multiplicative
checksum. -/

/-- Sample collaborators on a little-endian machine. -/
def sampleEnv : Env (List (List Byte)) Unit where
  host := .little
  compute_hashl := fun x => (x * 2654435761 + 1) % 2 ^ 64
  writer_create := fun w _ => (w, 0)
  writer_find := fun t _ _ _ wr => wr t
  writer_write := fun w _ data _ => (data :: w, 0)
  writer_compact_name := fun w => (w, 0, "db.compact")
  writer_compact_finalize := fun _ c => (c, c, 0)
  page_create := fun t _ _ _ => (t, 0, ⟨32, t.head.page_size⟩)
  page_load := fun t off cfg => (t, 0, ⟨off, cfg⟩)
  page_get := fun t _ key => (t, if key.length = 0 then 4 else 0, key)
  page_insert := fun t _ key _ =>
    ({ t with head := { t.head with page := some ⟨96 + key.length, 64⟩ } },
      if key.length = 0 then 4 else 0)
  page_remove := fun t _ key => (t, if key.length = 0 then 4 else 0)
  page_get_range := fun t _ _ _ _ _ => (t, 0)
  page_copy := fun t c p => (t, c, ⟨32, p.config⟩, 0)

/-- A sample tree with a root page at offset 4096. -/
def sampleTree : bp_tree_t (List (List Byte)) where
  writer := []
  head := { offset := 0, config := 0, page_size := 64, hash := 0, page := some ⟨4096, 7⟩ }
  compare_cb := bp__default_compare_cb

/-- A sample tree without root page, its page size field holding 128. -/
def freshTree : bp_tree_t (List (List Byte)) where
  writer := []
  head := { offset := 0, config := 0, page_size := 128, hash := 0, page := none }
  compare_cb := bp__default_compare_cb

/-- The sample collaborators with a page store that cannot create pages
(creation returns the error 5). -/
def failingEnv : Env (List (List Byte)) Unit :=
  { sampleEnv with page_create := fun t _ _ _ => (t, 5, ⟨0, 0⟩) }

/-! ## Properties -/

/-! ### Byte encodings -/

theorem be64_length (x : Nat) : (be64 x).length = 8 := rfl

theorem beVal_be64 (x : Nat) : beVal (be64 x) = x % 2 ^ 64 := by
  simp only [beVal, be64, byteOf, List.foldl]
  norm_num
  omega

theorem beVal_lt (l : List Byte) (h : l.length = 8) : beVal l < 2 ^ 64 := by
  match l, h with
  | [a, b, c, d, e, f, g, i], _ =>
    simp only [beVal, List.foldl]
    have := a.isLt; have := b.isLt; have := c.isLt; have := d.isLt
    have := e.isLt; have := f.isLt; have := g.isLt; have := i.isLt
    omega

theorem be64_beVal (l : List Byte) (h : l.length = 8) : be64 (beVal l) = l := by
  match l, h with
  | [a, b, c, d, e, f, g, i], _ =>
    simp only [beVal, List.foldl, be64, byteOf]
    have := a.isLt; have := b.isLt; have := c.isLt; have := d.isLt
    have := e.isLt; have := f.isLt; have := g.isLt; have := i.isLt
    simp only [List.cons.injEq, Fin.ext_iff, and_true]
    norm_num
    refine ⟨?_, ?_, ?_, ?_, ?_, ?_, ?_, ?_⟩ <;> omega

theorem be64_mod (x : Nat) : be64 (x % 2 ^ 64) = be64 x := by
  have h := be64_beVal (be64 x) (be64_length x)
  rw [beVal_be64] at h
  exact h

/-- Whatever the machine, a value converted with `htonll` lies in memory as its
big-endian encoding. -/
theorem hostBytes_htonll (e : Endian) (x : Nat) : hostBytes e (htonll e x) = be64 x := by
  cases e with
  | big => simp only [hostBytes, htonll, be64_mod]
  | little =>
    simp only [hostBytes, htonll, bswap64]
    rw [be64_beVal _ (by simp [be64_length]), List.reverse_reverse]

/-- Whatever the machine, an 8-byte field read from memory and converted with
`ntohll` is its big-endian value. -/
theorem ntohll_hostVal (e : Endian) (l : List Byte) (h : l.length = 8) :
    ntohll e (hostVal e l) = beVal l := by
  cases e with
  | big =>
    simp only [hostVal, ntohll]
    exact Nat.mod_eq_of_lt (beVal_lt l h)
  | little =>
    simp only [hostVal, ntohll, bswap64]
    rw [be64_beVal _ (by simp [h]), List.reverse_reverse]

theorem nhead_bytes_eq (e : Endian) (h : bp__tree_head_t) :
    nhead_bytes e h = head_record h.offset h.config h.page_size h.hash := by
  simp only [nhead_bytes, head_record, hostBytes_htonll]

theorem head_record_length (o c s h : Nat) : (head_record o c s h).length = 32 := rfl

theorem ntohll_field64 (e : Endian) (data : List Byte) (i : Nat)
    (h : 8 * i + 8 ≤ data.length) : ntohll e (field64 e data i) = be_field data i := by
  unfold field64 be_field
  apply ntohll_hostVal
  simp only [List.length_take, List.length_drop]
  omega

theorem be_field_head_record (o c s h : Nat) :
    be_field (head_record o c s h) 0 = o % 2 ^ 64 ∧
    be_field (head_record o c s h) 1 = c % 2 ^ 64 ∧
    be_field (head_record o c s h) 2 = s % 2 ^ 64 ∧
    be_field (head_record o c s h) 3 = h % 2 ^ 64 := by
  refine ⟨?_, ?_, ?_, ?_⟩
  · exact beVal_be64 o
  · exact beVal_be64 c
  · exact beVal_be64 s
  · exact beVal_be64 h

/-! ### Head load and store -/

theorem decode_head_fields (E : Env W Cb) (t : bp_tree_t W) (data : List Byte)
    (h : data.length = 32) :
    (decode_head E t data).head.offset = be_field data 0 ∧
    (decode_head E t data).head.config = be_field data 1 ∧
    (decode_head E t data).head.page_size = be_field data 2 ∧
    (decode_head E t data).head.hash = be_field data 3 ∧
    (decode_head E t data).head.page = t.head.page := by
  refine ⟨?_, ?_, ?_, ?_, rfl⟩ <;> exact ntohll_field64 _ _ _ (by omega)

theorem write_head_at_eq (E : Env W Cb) (t : bp_tree_t W) (p : bp__page_t) (pre : List Call) :
    write_head_at E t p pre =
      ⟨{ t with
          writer := (E.writer_write t.writer .kNotCompressed
            (head_record p.offset p.config t.head.page_size (E.compute_hashl p.offset))
            BP__HEAD_SIZE).1
          head := { t.head with
            offset := p.offset, config := p.config, hash := E.compute_hashl p.offset } },
        (E.writer_write t.writer .kNotCompressed
          (head_record p.offset p.config t.head.page_size (E.compute_hashl p.offset))
          BP__HEAD_SIZE).2,
        pre ++ [.writer_write .kNotCompressed
          (head_record p.offset p.config t.head.page_size (E.compute_hashl p.offset))
          BP__HEAD_SIZE
          (E.writer_write t.writer .kNotCompressed
            (head_record p.offset p.config t.head.page_size (E.compute_hashl p.offset))
            BP__HEAD_SIZE).2]⟩ := by
  simp only [write_head_at, nhead_bytes_eq]

theorem write_head_root (E : Env W Cb) (t : bp_tree_t W) (p : bp__page_t)
    (hp : t.head.page = some p) : bp__tree_write_head E t = write_head_at E t p [] := by
  simp only [bp__tree_write_head, hp]

theorem read_head_mismatch (E : Env W Cb) (t : bp_tree_t W) (data : List Byte)
    (h : E.compute_hashl (decode_head E t data).head.offset ≠ (decode_head E t data).head.hash) :
    bp__tree_read_head E t data = ⟨decode_head E t data, 1, []⟩ := by
  simp only [bp__tree_read_head, h, ne_eq, not_false_eq_true, if_true]

theorem read_head_match (E : Env W Cb) (t : bp_tree_t W) (data : List Byte)
    (h : E.compute_hashl (decode_head E t data).head.offset = (decode_head E t data).head.hash) :
    (bp__tree_read_head E t data).ret =
      (E.page_load (decode_head E t data) (decode_head E t data).head.offset
        (decode_head E t data).head.config).2.1 ∧
    (bp__tree_read_head E t data).calls =
      [.page_load (decode_head E t data).head.offset (decode_head E t data).head.config
        (E.page_load (decode_head E t data) (decode_head E t data).head.offset
          (decode_head E t data).head.config).2.1] := by
  simp only [bp__tree_read_head, h, ne_eq, not_true_eq_false, if_false]
  split <;> simp

theorem read_head_match_tree (E : Env W Cb) (t : bp_tree_t W) (data : List Byte)
    (h : E.compute_hashl (decode_head E t data).head.offset = (decode_head E t data).head.hash) :
    (bp__tree_read_head E t data).tree =
      if (E.page_load (decode_head E t data) (decode_head E t data).head.offset
          (decode_head E t data).head.config).2.1 = BP_OK then
        { (E.page_load (decode_head E t data) (decode_head E t data).head.offset
            (decode_head E t data).head.config).1 with
          head :=
            { (E.page_load (decode_head E t data) (decode_head E t data).head.offset
                (decode_head E t data).head.config).1.head with
              page := some (E.page_load (decode_head E t data) (decode_head E t data).head.offset
                (decode_head E t data).head.config).2.2 } }
      else
        (E.page_load (decode_head E t data) (decode_head E t data).head.offset
          (decode_head E t data).head.config).1 := by
  simp only [bp__tree_read_head, h, ne_eq, not_true_eq_false, if_false]
  split <;> rfl

/-- C6: for a head with a root page (all fields 64-bit values), Store hands the
writer exactly one record, through the not-compressed path with size
`BP__HEAD_SIZE` = 32: the concatenation of the big-endian encodings of offset,
config, page_size and hash, whatever the machine's byte order, and leaves the
head with these four values and the same root page.  Load on that record
stores the same four values in the head of the tree it is called on (writer,
comparator and root page untouched), the checksum check passes, and Load goes
on to load the root page at the same (offset, config) on that tree, returning
that load's status and the tree the page store leaves, with the loaded page
installed as root when the status is `BP_OK`. -/
theorem head_store_load_roundtrip (E : Env W Cb) (t t' : bp_tree_t W) (p : bp__page_t)
    (hp : t.head.page = some p) (ho : p.offset < 2 ^ 64) (hc : p.config < 2 ^ 64)
    (hs : t.head.page_size < 2 ^ 64) (hh : E.compute_hashl p.offset < 2 ^ 64) :
    (bp__tree_write_head E t).calls =
      [.writer_write .kNotCompressed
        (head_record p.offset p.config t.head.page_size (E.compute_hashl p.offset))
        BP__HEAD_SIZE (bp__tree_write_head E t).ret] ∧
    (head_record p.offset p.config t.head.page_size (E.compute_hashl p.offset)).length = 32 ∧
    BP__HEAD_SIZE = 32 ∧
    (bp__tree_write_head E t).tree.head =
      { offset := p.offset, config := p.config, page_size := t.head.page_size,
        hash := E.compute_hashl p.offset, page := some p } ∧
    (bp__tree_write_head E t).tree.writer =
      (E.writer_write t.writer .kNotCompressed
        (head_record p.offset p.config t.head.page_size (E.compute_hashl p.offset))
        BP__HEAD_SIZE).1 ∧
    (bp__tree_write_head E t).tree.compare_cb = t.compare_cb ∧
    (bp__tree_write_head E t).ret =
      (E.writer_write t.writer .kNotCompressed
        (head_record p.offset p.config t.head.page_size (E.compute_hashl p.offset))
        BP__HEAD_SIZE).2 ∧
    (∀ d, d = decode_head E t'
        (head_record p.offset p.config t.head.page_size (E.compute_hashl p.offset)) →
      d.head.offset = p.offset ∧ d.head.config = p.config ∧
      d.head.page_size = t.head.page_size ∧ d.head.hash = E.compute_hashl p.offset ∧
      E.compute_hashl d.head.offset = d.head.hash ∧
      (bp__tree_read_head E t'
        (head_record p.offset p.config t.head.page_size (E.compute_hashl p.offset))).calls =
        [.page_load p.offset p.config (E.page_load d p.offset p.config).2.1] ∧
      (bp__tree_read_head E t'
        (head_record p.offset p.config t.head.page_size (E.compute_hashl p.offset))).ret =
        (E.page_load d p.offset p.config).2.1 ∧
      d = { writer := t'.writer,
            head := { offset := p.offset, config := p.config, page_size := t.head.page_size,
                      hash := E.compute_hashl p.offset, page := t'.head.page },
            compare_cb := t'.compare_cb } ∧
      (bp__tree_read_head E t'
        (head_record p.offset p.config t.head.page_size (E.compute_hashl p.offset))).tree =
        if (E.page_load d p.offset p.config).2.1 = BP_OK then
          { (E.page_load d p.offset p.config).1 with
            head := { (E.page_load d p.offset p.config).1.head with
              page := some (E.page_load d p.offset p.config).2.2 } }
        else (E.page_load d p.offset p.config).1) := by
  refine ⟨?_, rfl, rfl, ?_, ?_, ?_, ?_, ?_⟩
  · rw [write_head_root E t p hp, write_head_at_eq]
    rfl
  · rw [write_head_root E t p hp, write_head_at_eq]
    simp only [hp]
  · rw [write_head_root E t p hp, write_head_at_eq]
  · rw [write_head_root E t p hp, write_head_at_eq]
  · rw [write_head_root E t p hp, write_head_at_eq]
  · intro d hd
    obtain ⟨f0, f1, f2, f3, f4⟩ := decode_head_fields E t' _
      (head_record_length p.offset p.config t.head.page_size (E.compute_hashl p.offset))
    obtain ⟨g0, g1, g2, g3⟩ :=
      be_field_head_record p.offset p.config t.head.page_size (E.compute_hashl p.offset)
    rw [g0, Nat.mod_eq_of_lt ho] at f0
    rw [g1, Nat.mod_eq_of_lt hc] at f1
    rw [g2, Nat.mod_eq_of_lt hs] at f2
    rw [g3, Nat.mod_eq_of_lt hh] at f3
    have hm : E.compute_hashl d.head.offset = d.head.hash := by rw [hd, f0, f3]
    obtain ⟨r1, r2⟩ := read_head_match E t' _ (hd ▸ hm)
    have r3 := read_head_match_tree E t' _ (hd ▸ hm)
    rw [← hd] at r1 r2 r3 f0 f1 f2 f3 f4
    rw [f0, f1] at r1 r2 r3
    refine ⟨f0, f1, f2, f3, hm, r2, r1, ?_, r3⟩
    have hw : d.writer = t'.writer := by rw [hd]; rfl
    have hcb : d.compare_cb = t'.compare_cb := by rw [hd]; rfl
    have heta : d = ⟨d.writer,
        ⟨d.head.offset, d.head.config, d.head.page_size, d.head.hash, d.head.page⟩,
        d.compare_cb⟩ := rfl
    exact heta.trans (by rw [f0, f1, f2, f3, f4, hw, hcb])

/-- C6, at a concrete tree: the sample tree (root page at offset 4096, descriptor 7). -/
theorem head_store_load_roundtrip_witness :
    (bp__tree_write_head sampleEnv sampleTree).calls =
      [.writer_write .kNotCompressed
        (head_record 4096 7 64 (sampleEnv.compute_hashl 4096))
        BP__HEAD_SIZE (bp__tree_write_head sampleEnv sampleTree).ret] ∧
    (bp__tree_write_head sampleEnv sampleTree).tree.head =
      { offset := 4096, config := 7, page_size := 64,
        hash := sampleEnv.compute_hashl 4096, page := some ⟨4096, 7⟩ } ∧
    (∀ d, d = decode_head sampleEnv freshTree
        (head_record 4096 7 64 (sampleEnv.compute_hashl 4096)) →
      d.head.offset = 4096 ∧ d.head.config = 7 ∧
      d.head.page_size = 64 ∧ d.head.hash = sampleEnv.compute_hashl 4096 ∧
      sampleEnv.compute_hashl d.head.offset = d.head.hash ∧
      (bp__tree_read_head sampleEnv freshTree
        (head_record 4096 7 64 (sampleEnv.compute_hashl 4096))).calls =
        [.page_load 4096 7 (sampleEnv.page_load d 4096 7).2.1] ∧
      (bp__tree_read_head sampleEnv freshTree
        (head_record 4096 7 64 (sampleEnv.compute_hashl 4096))).ret =
        (sampleEnv.page_load d 4096 7).2.1 ∧
      d = { writer := freshTree.writer,
            head := { offset := 4096, config := 7, page_size := 64,
                      hash := sampleEnv.compute_hashl 4096, page := freshTree.head.page },
            compare_cb := freshTree.compare_cb } ∧
      (bp__tree_read_head sampleEnv freshTree
        (head_record 4096 7 64 (sampleEnv.compute_hashl 4096))).tree =
        if (sampleEnv.page_load d 4096 7).2.1 = BP_OK then
          { (sampleEnv.page_load d 4096 7).1 with
            head := { (sampleEnv.page_load d 4096 7).1.head with
              page := some (sampleEnv.page_load d 4096 7).2.2 } }
        else (sampleEnv.page_load d 4096 7).1) :=
  have h := head_store_load_roundtrip sampleEnv sampleTree freshTree ⟨4096, 7⟩ rfl (by decide)
    (by decide) (by decide) (by decide)
  ⟨h.1, h.2.2.2.1, h.2.2.2.2.2.2.2⟩

theorem flipByte_ne (x : Byte) (b : Nat) (hb : b < 8) : flipByte x b ≠ x := by
  intro h
  have hx : x.val < 2 ^ 8 := x.isLt
  have hp : 2 ^ b < 2 ^ 8 := Nat.pow_lt_pow_right (by decide) hb
  have hlt : x.val ^^^ 2 ^ b < 256 := Nat.xor_lt_two_pow hx hp
  have hv : x.val ^^^ 2 ^ b = x.val := by
    have := congrArg Fin.val h
    simpa only [flipByte, Nat.mod_eq_of_lt hlt] using this
  have ht := congrArg (fun n => Nat.testBit n b) hv
  simp only [Nat.testBit_xor, Nat.testBit_two_pow_self] at ht
  cases hbit : x.val.testBit b <;> simp [hbit] at ht

theorem flip_hash_ne (H i b : Nat) (hi : i < 8) (hb : b < 8) :
    beVal ((be64 H).set i (flipByte ((be64 H).getD i 0) b)) ≠ H := by
  intro h
  have hlen : ((be64 H).set i (flipByte ((be64 H).getD i 0) b)).length = 8 := by
    simp [be64_length]
  have h1 := be64_beVal _ hlen
  rw [h] at h1
  have h2 := congrArg (fun l => l.getD i 0) h1
  simp only [List.getD_eq_getElem?_getD, List.getElem?_set, be64_length, hi, if_true,
    Option.getD_some] at h2
  exact flipByte_ne _ b hb h2.symm

theorem flipBit_head_record (o c s h k : Nat) (h1 : 192 ≤ k) (h2 : k < 256) :
    (flipBit (head_record o c s h) k).length = 32 ∧
    be_field (flipBit (head_record o c s h) k) 0 = o % 2 ^ 64 ∧
    be_field (flipBit (head_record o c s h) k) 3 =
      beVal ((be64 h).set (k / 8 - 24) (flipByte ((be64 h).getD (k / 8 - 24) 0) (k % 8))) := by
  have hj1 : 24 ≤ k / 8 := by omega
  have hj2 : k / 8 < 32 := by omega
  unfold flipBit
  generalize k % 8 = b
  generalize k / 8 = j at hj1 hj2
  refine ⟨by simp [head_record_length], ?_, ?_⟩
  · rw [← (be_field_head_record o c s h).1]
    unfold be_field
    rw [Nat.mul_zero, List.drop_zero, List.drop_zero, List.take_set_of_lt _ _ (by omega)]
  · interval_cases j <;> rfl

theorem write_head_fresh_fail (E : Env W Cb) (t : bp_tree_t W) (hp : t.head.page = none)
    (hc : (E.page_create { t with head := { t.head with page_size := 64 } } .kLeaf 0 0).2.1
      ≠ BP_OK) :
    bp__tree_write_head E t =
      ⟨(E.page_create { t with head := { t.head with page_size := 64 } } .kLeaf 0 0).1,
        (E.page_create { t with head := { t.head with page_size := 64 } } .kLeaf 0 0).2.1,
        [.page_create 64 .kLeaf 0 0
          (E.page_create { t with head := { t.head with page_size := 64 } } .kLeaf 0 0).2.1]⟩ := by
  unfold bp__tree_write_head
  rw [hp]
  simp only [hc, ne_eq, not_false_eq_true, if_true]

theorem write_head_fresh_ok (E : Env W Cb) (t : bp_tree_t W) (hp : t.head.page = none)
    (hc : (E.page_create { t with head := { t.head with page_size := 64 } } .kLeaf 0 0).2.1
      = BP_OK) :
    bp__tree_write_head E t =
      write_head_at E
        { (E.page_create { t with head := { t.head with page_size := 64 } } .kLeaf 0 0).1 with
          head :=
            { (E.page_create { t with head := { t.head with page_size := 64 } }
                .kLeaf 0 0).1.head with
              page := some
                (E.page_create { t with head := { t.head with page_size := 64 } }
                  .kLeaf 0 0).2.2 } }
        (E.page_create { t with head := { t.head with page_size := 64 } } .kLeaf 0 0).2.2
        [.page_create 64 .kLeaf 0 0
          (E.page_create { t with head := { t.head with page_size := 64 } } .kLeaf 0 0).2.1] := by
  unfold bp__tree_write_head
  rw [hp]
  simp only [hc, ne_eq, not_true_eq_false, if_false]

/-- What `write_head_at` leaves: one more call, the write of the big-endian
record of the head it leaves, and that head satisfies the head invariant when
its root page is `p`. -/
theorem write_head_at_spec (E : Env W Cb) (t : bp_tree_t W) (p : bp__page_t) (pre : List Call) :
    (write_head_at E t p pre).calls = pre ++ [.writer_write .kNotCompressed
      (head_record (write_head_at E t p pre).tree.head.offset
        (write_head_at E t p pre).tree.head.config
        (write_head_at E t p pre).tree.head.page_size
        (write_head_at E t p pre).tree.head.hash) BP__HEAD_SIZE (write_head_at E t p pre).ret] ∧
    (write_head_at E t p pre).tree.head.offset = p.offset ∧
    (write_head_at E t p pre).tree.head.config = p.config ∧
    (write_head_at E t p pre).tree.head.hash = E.compute_hashl p.offset ∧
    (write_head_at E t p pre).tree.head.page_size = t.head.page_size ∧
    (write_head_at E t p pre).tree.head.page = t.head.page := by
  rw [write_head_at_eq]
  exact ⟨rfl, rfl, rfl, rfl, rfl, rfl⟩

/-- Every record Store hands to the writer is the big-endian record of the
head it leaves, goes through the not-compressed path with the head size, and
that head satisfies the head invariant. -/
theorem write_head_record (E : Env W Cb) (s : bp_tree_t W) (comp : bp__comp_type)
    (data : List Byte) (size : Nat) (ret : Int)
    (hmem : Call.writer_write comp data size ret ∈ (bp__tree_write_head E s).calls) :
    data = head_record (bp__tree_write_head E s).tree.head.offset
      (bp__tree_write_head E s).tree.head.config
      (bp__tree_write_head E s).tree.head.page_size
      (bp__tree_write_head E s).tree.head.hash ∧
    comp = .kNotCompressed ∧ size = BP__HEAD_SIZE ∧ ret = (bp__tree_write_head E s).ret ∧
    HeadInv E (bp__tree_write_head E s).tree.head := by
  have at_case : ∀ (t : bp_tree_t W) (p : bp__page_t) (pre : List Call),
      t.head.page = some p →
      Call.writer_write comp data size ret ∉ pre →
      Call.writer_write comp data size ret ∈ (write_head_at E t p pre).calls →
      data = head_record (write_head_at E t p pre).tree.head.offset
        (write_head_at E t p pre).tree.head.config
        (write_head_at E t p pre).tree.head.page_size
        (write_head_at E t p pre).tree.head.hash ∧
      comp = .kNotCompressed ∧ size = BP__HEAD_SIZE ∧ ret = (write_head_at E t p pre).ret ∧
      HeadInv E (write_head_at E t p pre).tree.head := by
    intro t p pre hp hpre hm
    obtain ⟨hc, ho, hcfg, hh, _, hpg⟩ := write_head_at_spec E t p pre
    rw [hc, List.mem_append, List.mem_singleton] at hm
    rcases hm with hm | hm
    · exact absurd hm hpre
    · injection hm with e1 e2 e3 e4
      exact ⟨e2, e1, e3, e4, p, by rw [hpg, hp], ho, hcfg, by rw [hh, ho]⟩
  cases hp : s.head.page with
  | none =>
    by_cases hc : (E.page_create { s with head := { s.head with page_size := 64 } }
        .kLeaf 0 0).2.1 = BP_OK
    · rw [write_head_fresh_ok E s hp hc] at hmem ⊢
      exact at_case _ _ _ rfl (by simp) hmem
    · rw [write_head_fresh_fail E s hp hc] at hmem
      simp at hmem
  | some p =>
    rw [write_head_root E s p hp] at hmem ⊢
    exact at_case _ _ _ hp (by simp) hmem

/-- C1: Load rejects a corrupted head.  For every 32-byte record: when the
checksum of the decoded offset differs from the decoded hash, Load returns 1
(not `BP_OK`), calls nothing of the page store and leaves `head.page` as it
was; when they agree, Load makes the single call LoadPage(decoded offset,
decoded config) and returns its status.  And for every record Store hands to
the writer (head offset a 64-bit value), inverting any one bit of the hash
field (bits 192 to 255) makes Load fail that way. -/
theorem read_head_rejects_corrupted (E : Env W Cb) (t : bp_tree_t W) (data : List Byte)
    (hlen : data.length = 32) :
    (E.compute_hashl (be_field data 0) ≠ be_field data 3 →
      (bp__tree_read_head E t data).ret = 1 ∧
      (bp__tree_read_head E t data).ret ≠ BP_OK ∧
      (bp__tree_read_head E t data).calls = [] ∧
      (bp__tree_read_head E t data).tree.head.page = t.head.page) ∧
    (E.compute_hashl (be_field data 0) = be_field data 3 →
      (bp__tree_read_head E t data).ret =
        (E.page_load (decode_head E t data) (be_field data 0) (be_field data 1)).2.1 ∧
      (bp__tree_read_head E t data).calls =
        [.page_load (be_field data 0) (be_field data 1) (bp__tree_read_head E t data).ret]) ∧
    (∀ (s : bp_tree_t W) (comp : bp__comp_type) (record : List Byte) (size : Nat) (ret : Int)
      (k : Nat),
      Call.writer_write comp record size ret ∈ (bp__tree_write_head E s).calls →
      (bp__tree_write_head E s).tree.head.offset < 2 ^ 64 →
      192 ≤ k → k < 256 →
      (bp__tree_read_head E t (flipBit record k)).ret = 1 ∧
      (bp__tree_read_head E t (flipBit record k)).ret ≠ BP_OK ∧
      (bp__tree_read_head E t (flipBit record k)).calls = [] ∧
      (bp__tree_read_head E t (flipBit record k)).tree.head.page = t.head.page) := by
  have key : ∀ d : List Byte, d.length = 32 →
      E.compute_hashl (be_field d 0) ≠ be_field d 3 →
      (bp__tree_read_head E t d).ret = 1 ∧
      (bp__tree_read_head E t d).ret ≠ BP_OK ∧
      (bp__tree_read_head E t d).calls = [] ∧
      (bp__tree_read_head E t d).tree.head.page = t.head.page := by
    intro d hd hne
    obtain ⟨f0, _, _, f3, f4⟩ := decode_head_fields E t d hd
    rw [read_head_mismatch E t d (by rw [f0, f3]; exact hne)]
    exact ⟨rfl, by simp [BP_OK], rfl, f4⟩
  refine ⟨key data hlen, ?_, ?_⟩
  · intro heq
    obtain ⟨f0, f1, _, f3, _⟩ := decode_head_fields E t data hlen
    obtain ⟨r1, r2⟩ := read_head_match E t data (by rw [f0, f3]; exact heq)
    rw [f0, f1] at r1 r2
    exact ⟨r1, by rw [r2, r1]⟩
  · intro s comp record size ret k hmem ho h1 h2
    obtain ⟨hrec, _, _, _, p, _, _, _, hhash⟩ := write_head_record E s comp record size ret hmem
    obtain ⟨g0, g1, g3⟩ := flipBit_head_record (bp__tree_write_head E s).tree.head.offset
      (bp__tree_write_head E s).tree.head.config (bp__tree_write_head E s).tree.head.page_size
      (bp__tree_write_head E s).tree.head.hash k h1 h2
    rw [← hrec] at g0 g1 g3
    apply key _ g0
    rw [g1, g3, Nat.mod_eq_of_lt ho, ← hhash]
    exact (flip_hash_ne _ _ _ (by omega) (Nat.mod_lt _ (by decide))).symm

/-- C1, at concrete records: a 32-byte record whose hash field does not match is
rejected without a page load; the record of the sample tree is accepted and its
root loaded; and that record with any bit of its hash field inverted is
rejected. -/
theorem read_head_rejects_corrupted_witness :
    ((bp__tree_read_head sampleEnv freshTree (head_record 4096 7 64 5)).ret = 1 ∧
      (bp__tree_read_head sampleEnv freshTree (head_record 4096 7 64 5)).ret ≠ BP_OK ∧
      (bp__tree_read_head sampleEnv freshTree (head_record 4096 7 64 5)).calls = [] ∧
      (bp__tree_read_head sampleEnv freshTree (head_record 4096 7 64 5)).tree.head.page =
        freshTree.head.page) ∧
    (bp__tree_read_head sampleEnv freshTree
        (head_record 4096 7 64 (sampleEnv.compute_hashl 4096))).calls =
      [.page_load (be_field (head_record 4096 7 64 (sampleEnv.compute_hashl 4096)) 0)
        (be_field (head_record 4096 7 64 (sampleEnv.compute_hashl 4096)) 1)
        (bp__tree_read_head sampleEnv freshTree
          (head_record 4096 7 64 (sampleEnv.compute_hashl 4096))).ret] ∧
    (∀ k, 192 ≤ k → k < 256 →
      (bp__tree_read_head sampleEnv freshTree
        (flipBit (head_record 4096 7 64 (sampleEnv.compute_hashl 4096)) k)).ret = 1 ∧
      (bp__tree_read_head sampleEnv freshTree
        (flipBit (head_record 4096 7 64 (sampleEnv.compute_hashl 4096)) k)).calls = []) :=
  ⟨(read_head_rejects_corrupted sampleEnv freshTree (head_record 4096 7 64 5) rfl).1
      (by decide),
    ((read_head_rejects_corrupted sampleEnv freshTree
      (head_record 4096 7 64 (sampleEnv.compute_hashl 4096)) rfl).2.1 (by decide)).2,
    fun k h1 h2 =>
      have h := (read_head_rejects_corrupted sampleEnv freshTree (head_record 4096 7 64 5)
        rfl).2.2 sampleTree .kNotCompressed
        (head_record 4096 7 64 (sampleEnv.compute_hashl 4096)) BP__HEAD_SIZE 0 k
        (by decide) (by decide) h1 h2
      ⟨h.1, h.2.2.1⟩⟩

/-! ### Store: fresh trees, the head invariant, head-slot writes -/

theorem write_head_reached (E : Env W Cb) (t : bp_tree_t W) (h : reachesWrite E t) :
    HeadInv E (bp__tree_write_head E t).tree.head ∧
    headWrites (bp__tree_write_head E t).calls = 1 ∧
    (bp__tree_write_head E t).calls.getLast? = some (.writer_write .kNotCompressed
      (head_record (bp__tree_write_head E t).tree.head.offset
        (bp__tree_write_head E t).tree.head.config
        (bp__tree_write_head E t).tree.head.page_size
        (bp__tree_write_head E t).tree.head.hash)
      BP__HEAD_SIZE (bp__tree_write_head E t).ret) := by
  have at_case : ∀ (s : bp_tree_t W) (p : bp__page_t) (pre : List Call),
      s.head.page = some p → headWrites pre = 0 →
      HeadInv E (write_head_at E s p pre).tree.head ∧
      headWrites (write_head_at E s p pre).calls = 1 ∧
      (write_head_at E s p pre).calls.getLast? = some (.writer_write .kNotCompressed
        (head_record (write_head_at E s p pre).tree.head.offset
          (write_head_at E s p pre).tree.head.config
          (write_head_at E s p pre).tree.head.page_size
          (write_head_at E s p pre).tree.head.hash)
        BP__HEAD_SIZE (write_head_at E s p pre).ret) := by
    intro s p pre hp hpre
    obtain ⟨hc, ho, hcfg, hh, _, hpg⟩ := write_head_at_spec E s p pre
    refine ⟨⟨p, by rw [hpg, hp], ho, hcfg, by rw [hh, ho]⟩, ?_, ?_⟩
    · rw [hc]
      unfold headWrites at hpre ⊢
      rw [List.filter_append, List.length_append, hpre]
      rfl
    · rw [hc, List.getLast?_append]
      rfl
  cases hp : t.head.page with
  | none =>
    have hc : createStatus E t = BP_OK := by
      rcases h with h | h
      · exact absurd hp h
      · exact h
    rw [write_head_fresh_ok E t hp hc]
    exact at_case _ _ _ rfl rfl
  | some p =>
    rw [write_head_root E t p hp]
    exact at_case _ _ _ hp rfl

theorem write_head_not_reached (E : Env W Cb) (t : bp_tree_t W) (h : ¬ reachesWrite E t) :
    (bp__tree_write_head E t).ret = createStatus E t ∧
    (bp__tree_write_head E t).ret ≠ BP_OK ∧
    headWrites (bp__tree_write_head E t).calls = 0 := by
  unfold reachesWrite at h
  have hp : t.head.page = none := by
    by_contra hne
    exact h (Or.inl hne)
  have hc : createStatus E t ≠ BP_OK := fun hc => h (Or.inr hc)
  rw [write_head_fresh_fail E t hp hc]
  exact ⟨rfl, hc, rfl⟩

theorem write_head_ok_reached (E : Env W Cb) (t : bp_tree_t W)
    (h : (bp__tree_write_head E t).ret = BP_OK) : reachesWrite E t := by
  by_contra hn
  exact (write_head_not_reached E t hn).2.1 h

/-- C9 (as amended): called on a tree with no root page, Store sets the tree's
page_size to the fixed value 64, whatever the field held, and asks the page
store exactly once for a page: an empty leaf with zero offset and config, on the
tree with page_size 64.  If the creation fails Store returns the creation
error, having made no other call and written no head; if it succeeds the new
page is the root.  Called on a tree that has a root page, Store asks for no
page and leaves the root and page_size unchanged. -/
theorem write_head_fresh_tree (E : Env W Cb) (t : bp_tree_t W) :
    (t.head.page = none →
      (bp__tree_write_head E t).calls.filter (fun c => c.kind = .page_create) =
        [.page_create 64 .kLeaf 0 0 (createStatus E t)] ∧
      (createStatus E t ≠ BP_OK →
        (bp__tree_write_head E t).ret = createStatus E t ∧
        (bp__tree_write_head E t).calls = [.page_create 64 .kLeaf 0 0 (createStatus E t)] ∧
        headWrites (bp__tree_write_head E t).calls = 0) ∧
      (createStatus E t = BP_OK →
        (bp__tree_write_head E t).tree.head.page =
          some (E.page_create { t with head := { t.head with page_size := 64 } }
            .kLeaf 0 0).2.2 ∧
        HeadInv E (bp__tree_write_head E t).tree.head)) ∧
    (∀ p, t.head.page = some p →
      (bp__tree_write_head E t).calls.filter (fun c => c.kind = .page_create) = [] ∧
      (bp__tree_write_head E t).tree.head.page = some p ∧
      (bp__tree_write_head E t).tree.head.page_size = t.head.page_size) := by
  constructor
  · intro hp
    by_cases hc : createStatus E t = BP_OK
    · refine ⟨?_, fun h => absurd hc h, fun _ => ⟨?_, ?_⟩⟩
      · rw [write_head_fresh_ok E t hp hc, write_head_at_eq]
        rfl
      · rw [write_head_fresh_ok E t hp hc, write_head_at_eq]
      · exact (write_head_reached E t (Or.inr hc)).1
    · refine ⟨?_, fun _ => ⟨?_, ?_, ?_⟩, fun h => absurd h hc⟩ <;>
        rw [write_head_fresh_fail E t hp hc] <;> rfl
  · intro p hp
    rw [write_head_root E t p hp, write_head_at_eq]
    exact ⟨rfl, hp, rfl⟩

/-- C9, at a concrete tree: the sample tree without root page, and the sample
tree with one. -/
theorem write_head_fresh_tree_witness :
    ((bp__tree_write_head sampleEnv freshTree).calls.filter (fun c => c.kind = .page_create) =
        [.page_create 64 .kLeaf 0 0 (createStatus sampleEnv freshTree)] ∧
      (bp__tree_write_head sampleEnv freshTree).tree.head.page =
          some (sampleEnv.page_create
            { freshTree with head := { freshTree.head with page_size := 64 } }
            .kLeaf 0 0).2.2) ∧
    ((bp__tree_write_head sampleEnv sampleTree).calls.filter
        (fun c => c.kind = .page_create) = [] ∧
      (bp__tree_write_head sampleEnv sampleTree).tree.head.page = some ⟨4096, 7⟩ ∧
      (bp__tree_write_head sampleEnv sampleTree).tree.head.page_size =
        sampleTree.head.page_size) :=
  ⟨⟨((write_head_fresh_tree sampleEnv freshTree).1 rfl).1,
      (((write_head_fresh_tree sampleEnv freshTree).1 rfl).2.2 rfl).1⟩,
    (write_head_fresh_tree sampleEnv sampleTree).2 ⟨4096, 7⟩ rfl⟩

/-- C9, the claim as stated fails: on a tree without root page whose page_size
field holds 128, Store asks the page store for a page with page_size 64 and
leaves 64, not 128, in the head. -/
theorem write_head_ignores_configured_page_size :
    freshTree.head.page = none ∧ freshTree.head.page_size = 128 ∧
    (bp__tree_write_head sampleEnv freshTree).calls.head? =
      some (.page_create 64 .kLeaf 0 0 0) ∧
    (bp__tree_write_head sampleEnv freshTree).tree.head.page_size = 64 ∧
    (bp__tree_write_head sampleEnv freshTree).tree.head.page_size ≠
      freshTree.head.page_size := by
  decide

/-- C2 (as amended): head-slot writes follow successful mutations.  When the
page store's insert (remove) fails, `bp_set` (`bp_remove`) returns that error
unchanged, leaves the tree as the page store left it, and makes no head-slot
write.  When it returns `BP_OK` they run Store on the resulting tree and return
what Store returns: if the tree has a root page or Store can create one,
exactly one head-slot write is made, it is the last call and its status is the
returned one; if the tree has no root page and the creation fails, no head-slot
write is made and the creation error is returned.  `bp_get` makes the single
point-lookup call, no head-slot write, and returns the lookup's status, tree
and value. -/
theorem head_writes_follow_mutations (E : Env W Cb) (tree : bp_tree_t W) (key : bp_key_t)
    (value : bp_value_t) :
    ((E.page_insert tree tree.head.page key value).2 ≠ BP_OK →
      (bp_set E tree key value).ret = (E.page_insert tree tree.head.page key value).2 ∧
      (bp_set E tree key value).tree = (E.page_insert tree tree.head.page key value).1 ∧
      (bp_set E tree key value).calls =
        [.page_insert tree.head.page key value (bp_set E tree key value).ret] ∧
      headWrites (bp_set E tree key value).calls = 0) ∧
    ((E.page_insert tree tree.head.page key value).2 = BP_OK →
      (bp_set E tree key value).tree =
        (bp__tree_write_head E (E.page_insert tree tree.head.page key value).1).tree ∧
      (bp_set E tree key value).ret =
        (bp__tree_write_head E (E.page_insert tree tree.head.page key value).1).ret ∧
      (bp_set E tree key value).calls =
        .page_insert tree.head.page key value BP_OK ::
          (bp__tree_write_head E (E.page_insert tree tree.head.page key value).1).calls ∧
      (reachesWrite E (E.page_insert tree tree.head.page key value).1 →
        headWrites (bp_set E tree key value).calls = 1 ∧
        ∃ data, (bp_set E tree key value).calls.getLast? =
          some (.writer_write .kNotCompressed data BP__HEAD_SIZE
            (bp_set E tree key value).ret)) ∧
      (¬ reachesWrite E (E.page_insert tree tree.head.page key value).1 →
        headWrites (bp_set E tree key value).calls = 0 ∧
        (bp_set E tree key value).ret =
          createStatus E (E.page_insert tree tree.head.page key value).1 ∧
        (bp_set E tree key value).ret ≠ BP_OK)) ∧
    ((E.page_remove tree tree.head.page key).2 ≠ BP_OK →
      (bp_remove E tree key).ret = (E.page_remove tree tree.head.page key).2 ∧
      (bp_remove E tree key).tree = (E.page_remove tree tree.head.page key).1 ∧
      (bp_remove E tree key).calls =
        [.page_remove tree.head.page key (bp_remove E tree key).ret] ∧
      headWrites (bp_remove E tree key).calls = 0) ∧
    ((E.page_remove tree tree.head.page key).2 = BP_OK →
      (bp_remove E tree key).tree =
        (bp__tree_write_head E (E.page_remove tree tree.head.page key).1).tree ∧
      (bp_remove E tree key).ret =
        (bp__tree_write_head E (E.page_remove tree tree.head.page key).1).ret ∧
      (bp_remove E tree key).calls =
        .page_remove tree.head.page key BP_OK ::
          (bp__tree_write_head E (E.page_remove tree tree.head.page key).1).calls ∧
      (reachesWrite E (E.page_remove tree tree.head.page key).1 →
        headWrites (bp_remove E tree key).calls = 1 ∧
        ∃ data, (bp_remove E tree key).calls.getLast? =
          some (.writer_write .kNotCompressed data BP__HEAD_SIZE (bp_remove E tree key).ret)) ∧
      (¬ reachesWrite E (E.page_remove tree tree.head.page key).1 →
        headWrites (bp_remove E tree key).calls = 0 ∧
        (bp_remove E tree key).ret =
          createStatus E (E.page_remove tree tree.head.page key).1 ∧
        (bp_remove E tree key).ret ≠ BP_OK)) ∧
    ((bp_get E tree key).1.ret = (E.page_get tree tree.head.page key).2.1 ∧
      (bp_get E tree key).1.tree = (E.page_get tree tree.head.page key).1 ∧
      (bp_get E tree key).2 = (E.page_get tree tree.head.page key).2.2 ∧
      (bp_get E tree key).1.calls =
        [.page_get tree.head.page key (E.page_get tree tree.head.page key).2.1] ∧
      headWrites (bp_get E tree key).1.calls = 0) := by
  have tail : ∀ (ev : Call) (s : bp_tree_t W), ev.isHeadWrite = false →
      (reachesWrite E s →
        headWrites (ev :: (bp__tree_write_head E s).calls) = 1 ∧
        ∃ data, (ev :: (bp__tree_write_head E s).calls).getLast? =
          some (.writer_write .kNotCompressed data BP__HEAD_SIZE
            (bp__tree_write_head E s).ret)) ∧
      (¬ reachesWrite E s →
        headWrites (ev :: (bp__tree_write_head E s).calls) = 0 ∧
        (bp__tree_write_head E s).ret = createStatus E s ∧
        (bp__tree_write_head E s).ret ≠ BP_OK) := by
    intro ev s hev
    have hcons : headWrites (ev :: (bp__tree_write_head E s).calls) =
        headWrites (bp__tree_write_head E s).calls := by
      unfold headWrites
      rw [List.filter_cons_of_neg (by simp [hev])]
    constructor
    · intro hs
      obtain ⟨_, h1, h2⟩ := write_head_reached E s hs
      refine ⟨by rw [hcons, h1], head_record (bp__tree_write_head E s).tree.head.offset
        (bp__tree_write_head E s).tree.head.config (bp__tree_write_head E s).tree.head.page_size
        (bp__tree_write_head E s).tree.head.hash, ?_⟩
      cases hc : (bp__tree_write_head E s).calls with
      | nil => rw [hc] at h2; simp at h2
      | cons a l =>
        rw [hc] at h2
        rw [List.getLast?_cons_cons]
        exact h2
    · intro hs
      obtain ⟨h1, h2, h3⟩ := write_head_not_reached E s hs
      exact ⟨by rw [hcons, h3], h1, h2⟩
  refine ⟨?_, ?_, ?_, ?_, rfl, rfl, rfl, rfl, rfl⟩
  · intro h
    simp only [bp_set, h, ne_eq, not_false_eq_true, if_true]
    exact ⟨trivial, trivial, trivial, rfl⟩
  · intro h
    simp only [bp_set, h, ne_eq, not_true_eq_false, if_false]
    exact ⟨trivial, trivial, trivial, tail _ _ rfl⟩
  · intro h
    simp only [bp_remove, h, ne_eq, not_false_eq_true, if_true]
    exact ⟨trivial, trivial, trivial, rfl⟩
  · intro h
    simp only [bp_remove, h, ne_eq, not_true_eq_false, if_false]
    exact ⟨trivial, trivial, trivial, tail _ _ rfl⟩

/-- C2, at concrete inputs: setting and removing a one-byte key on the sample
tree (one head-slot write each), the empty key, which the sample page store
refuses (no head-slot write), and a removal on a tree without root page when
no page can be created (no head-slot write, the creation error returned). -/
theorem head_writes_follow_mutations_witness :
    (headWrites (bp_set sampleEnv sampleTree ⟨1, [65]⟩ ⟨1, [66]⟩).calls = 1 ∧
      ∃ data, (bp_set sampleEnv sampleTree ⟨1, [65]⟩ ⟨1, [66]⟩).calls.getLast? =
        some (.writer_write .kNotCompressed data BP__HEAD_SIZE
          (bp_set sampleEnv sampleTree ⟨1, [65]⟩ ⟨1, [66]⟩).ret)) ∧
    (headWrites (bp_remove sampleEnv sampleTree ⟨1, [65]⟩).calls = 1 ∧
      ∃ data, (bp_remove sampleEnv sampleTree ⟨1, [65]⟩).calls.getLast? =
        some (.writer_write .kNotCompressed data BP__HEAD_SIZE
          (bp_remove sampleEnv sampleTree ⟨1, [65]⟩).ret)) ∧
    ((bp_remove sampleEnv sampleTree ⟨0, []⟩).ret =
        (sampleEnv.page_remove sampleTree sampleTree.head.page ⟨0, []⟩).2 ∧
      (bp_remove sampleEnv sampleTree ⟨0, []⟩).tree =
        (sampleEnv.page_remove sampleTree sampleTree.head.page ⟨0, []⟩).1 ∧
      (bp_remove sampleEnv sampleTree ⟨0, []⟩).calls =
        [.page_remove sampleTree.head.page ⟨0, []⟩ (bp_remove sampleEnv sampleTree ⟨0, []⟩).ret] ∧
      headWrites (bp_remove sampleEnv sampleTree ⟨0, []⟩).calls = 0) ∧
    (headWrites (bp_remove failingEnv freshTree ⟨1, [65]⟩).calls = 0 ∧
      (bp_remove failingEnv freshTree ⟨1, [65]⟩).ret =
        createStatus failingEnv
          (failingEnv.page_remove freshTree freshTree.head.page ⟨1, [65]⟩).1 ∧
      (bp_remove failingEnv freshTree ⟨1, [65]⟩).ret ≠ BP_OK) :=
  ⟨((head_writes_follow_mutations sampleEnv sampleTree ⟨1, [65]⟩ ⟨1, [66]⟩).2.1 rfl).2.2.2.1
      (Or.inl (by decide)),
    ((head_writes_follow_mutations sampleEnv sampleTree ⟨1, [65]⟩ ⟨1, [66]⟩).2.2.2.1
      rfl).2.2.2.1 (Or.inl (by decide)),
    (head_writes_follow_mutations sampleEnv sampleTree ⟨0, []⟩ ⟨0, []⟩).2.2.1 (by decide),
    ((head_writes_follow_mutations failingEnv freshTree ⟨1, [65]⟩ ⟨1, [66]⟩).2.2.2.1
      rfl).2.2.2.2 (by unfold reachesWrite createStatus; decide)⟩

/-- C2, the claim as stated fails: on the tree without root page, with a page
store whose remove returns `BP_OK` and which cannot create a page, `bp_remove`
makes no head-slot write after the successful remove and returns the creation
error 5, not the status of a head write. -/
theorem remove_ok_without_head_write :
    (failingEnv.page_remove freshTree freshTree.head.page ⟨1, [65]⟩).2 = BP_OK ∧
    headWrites (bp_remove failingEnv freshTree ⟨1, [65]⟩).calls = 0 ∧
    (bp_remove failingEnv freshTree ⟨1, [65]⟩).calls =
      [.page_remove none ⟨1, [65]⟩ 0, .page_create 64 .kLeaf 0 0 5] ∧
    (bp_remove failingEnv freshTree ⟨1, [65]⟩).ret = 5 := by
  decide

/-! ### Compaction -/

theorem bp_open_calls (E : Env W Cb) (tree : bp_tree_t W) (f : String) :
    ((bp_open E tree f).calls = [.writer_create f (bp_open E tree f).ret] ∧
      (bp_open E tree f).ret ≠ BP_OK) ∨
    ((bp_open E tree f).calls =
      [.writer_create f BP_OK, .writer_find .kNotCompressed BP__HEAD_SIZE (bp_open E tree f).ret]) := by
  unfold bp_open
  by_cases h1 : (E.writer_create tree.writer f).2 = BP_OK
  · right
    simp only [h1, ne_eq, not_true_eq_false, if_false]
    split
    · rfl
    · rename_i h2
      simp only [ne_eq, Decidable.not_not] at h2
      simp only [h2]
  · left
    simp only [h1, ne_eq, not_false_eq_true, if_true, and_self]

/-- What a run of `bp_compact` looks like: its calls are some calls that all
returned `BP_OK` followed by a last one whose status is returned; the calls
follow `compactOrder`; a last call that returned `BP_OK` is the finalization;
and every record written is the big-endian record of a head that satisfies
the head invariant and whose root page is the copied root. -/
theorem bp_compact_run (E : Env W Cb) (tree compacted : bp_tree_t W) (r : Outcome W)
    (h : bp_compact E tree compacted = some r) :
    ∃ (pre : List Call) (last : Call),
      r.calls = pre ++ [last] ∧ r.ret = last.ret ∧ (∀ c ∈ pre, c.ret = BP_OK) ∧
      (pre ++ [last]).map Call.kind <+: compactOrder ∧
      (last.ret = BP_OK → last.kind = .writer_compact_finalize) ∧
      (∀ comp data size ret, Call.writer_write comp data size ret ∈ r.calls →
        ∃ (hd : bp__tree_head_t) (head_page : bp__page_t), HeadInv E hd ∧
          data = head_record hd.offset hd.config hd.page_size hd.hash ∧
          tree.head.page = some head_page ∧
          hd.page = some (compactCopy E tree compacted head_page).2.2.1 ∧
          hd.page_size = (compactCopy E tree compacted head_page).2.1.head.page_size) := by
  unfold bp_compact at h
  by_cases h1 : (E.writer_compact_name tree.writer).2.1 = BP_OK
  case neg =>
    simp only [h1, ne_eq, not_false_eq_true, if_true, Option.some.injEq] at h
    subst h
    exact ⟨[], _, rfl, rfl, by simp, by simp [compactOrder, Call.kind], fun h => absurd h h1, by simp⟩
  simp only [h1, ne_eq, not_true_eq_false, if_false] at h
  generalize ho : bp_open E compacted (E.writer_compact_name tree.writer).2.2 = o at h
  have hoc := bp_open_calls E compacted (E.writer_compact_name tree.writer).2.2
  rw [ho] at hoc
  by_cases h2 : o.ret = BP_OK
  case neg =>
    simp only [h2, not_false_eq_true, if_true, Option.some.injEq] at h
    subst h
    rcases hoc with ⟨hc, _⟩ | hc
    · refine ⟨[.writer_compact_name BP_OK],
        .writer_create (E.writer_compact_name tree.writer).2.2 o.ret, ?_, rfl, ?_, ?_,
        fun h => absurd h h2, ?_⟩
      · rw [hc]
      · simp [Call.ret]
      · simp [compactOrder, Call.kind]
      · simp [hc]
    · refine ⟨[.writer_compact_name BP_OK,
          .writer_create (E.writer_compact_name tree.writer).2.2 BP_OK],
        .writer_find .kNotCompressed BP__HEAD_SIZE o.ret, ?_, rfl, ?_, ?_,
        fun h => absurd h h2, ?_⟩
      · rw [hc]
        rfl
      · simp [Call.ret]
      · simp [compactOrder, Call.kind]
      · simp [hc]
  have hc : o.calls = [.writer_create (E.writer_compact_name tree.writer).2.2 BP_OK,
      .writer_find .kNotCompressed BP__HEAD_SIZE BP_OK] := by
    rcases hoc with ⟨_, hne⟩ | hc
    · exact absurd h2 hne
    · rw [hc, h2]
  simp only [h2, not_true_eq_false, if_false, hc, h1] at h
  cases hp : tree.head.page with
  | none => simp [hp] at h
  | some head_page =>
    simp only [hp] at h
    generalize hl : E.page_load { tree with writer := (E.writer_compact_name tree.writer).1 }
      head_page.offset head_page.config = l at h
    by_cases h3 : l.2.1 = BP_OK
    case neg =>
      simp only [h3, not_false_eq_true, if_true, Option.some.injEq] at h
      subst h
      exact ⟨_, _, rfl, rfl, by simp [Call.ret], by simp [compactOrder, Call.kind],
        fun h => absurd h h3, by simp⟩
    simp only [h3, not_true_eq_false, if_false] at h
    generalize hcp : E.page_copy l.1 o.tree l.2.2 = c at h
    by_cases h4 : c.2.2.2 = BP_OK
    case neg =>
      simp only [h4, not_false_eq_true, if_true, Option.some.injEq] at h
      subst h
      exact ⟨_, _, rfl, rfl, by simp [Call.ret], by simp [compactOrder, Call.kind],
        fun h => absurd h h4, by simp⟩
    simp only [h4, not_true_eq_false, if_false] at h
    rw [write_head_root E _ c.2.2.1 rfl] at h
    obtain ⟨hwc, hwo, hwcfg, hwh, hwps, hwp⟩ := write_head_at_spec E
      { c.2.1 with head := { c.2.1.head with page := some c.2.2.1 } } c.2.2.1 []
    generalize hw : write_head_at E
      { c.2.1 with head := { c.2.1.head with page := some c.2.2.1 } } c.2.2.1 [] = w
      at h hwc hwo hwcfg hwh hwps hwp
    have hinv : HeadInv E w.tree.head := ⟨c.2.2.1, hwp, hwo, hwcfg, by rw [hwh, hwo]⟩
    have hcc : compactCopy E tree compacted head_page = c := by
      unfold compactCopy
      rw [ho, hl, hcp]
    have hroot : w.tree.head.page = some (compactCopy E tree compacted head_page).2.2.1 := by
      rw [hcc]
      exact hwp
    have hsize : w.tree.head.page_size =
        (compactCopy E tree compacted head_page).2.1.head.page_size := by
      rw [hcc]
      exact hwps
    rw [List.nil_append] at hwc
    by_cases h5 : w.ret = BP_OK
    case neg =>
      simp only [h5, not_false_eq_true, if_true, Option.some.injEq, hwc] at h
      subst h
      refine ⟨_, _, rfl, rfl, by simp [Call.ret], by simp [compactOrder, Call.kind],
        fun h => absurd h h5, ?_⟩
      intro comp data size ret hm
      simp at hm
      exact ⟨_, head_page, hinv, hm.2.1, rfl, hroot, hsize⟩
    simp only [h5, not_true_eq_false, if_false, Option.some.injEq, hwc] at h
    subst h
    refine ⟨_, _, rfl, rfl, by simp [Call.ret], by simp [compactOrder, Call.kind],
      fun _ => rfl, ?_⟩
    intro comp data size ret hm
    simp at hm
    exact ⟨_, head_page, hinv, hm.2.1, rfl, hroot, hsize⟩

theorem getLast?_cons_of_getLast? {α : Type} (a : α) (l : List α) (x : α)
    (h : l.getLast? = some x) : (a :: l).getLast? = some x := by
  cases l with
  | nil => simp at h
  | cons b l => rw [List.getLast?_cons_cons]; exact h

/-- C7: Store establishes the head invariant.  After every call of
`bp__tree_write_head` that reaches the write (the root page existed or was
created), the head has the root page's offset and config and
hash = checksum(offset), and the record written last is the big-endian record
of that head.  Hence after every `bp_set` and `bp_remove` that returns
`BP_OK` the tree's head satisfies the invariant and the last call is the write
of its record; and every record `bp_compact` writes is the record of the
compacted tree's head, which satisfies the invariant with the copied root as
its root page: the record carries the copied root's offset and config, the
compacted tree's page_size and the checksum of that offset. -/
theorem store_establishes_head_invariant (E : Env W Cb) :
    (∀ t : bp_tree_t W, reachesWrite E t →
      (∃ p, (bp__tree_write_head E t).tree.head.page = some p ∧
        (bp__tree_write_head E t).tree.head.offset = p.offset ∧
        (bp__tree_write_head E t).tree.head.config = p.config ∧
        (bp__tree_write_head E t).tree.head.hash =
          E.compute_hashl (bp__tree_write_head E t).tree.head.offset) ∧
      (bp__tree_write_head E t).calls.getLast? = some (.writer_write .kNotCompressed
        (head_record (bp__tree_write_head E t).tree.head.offset
          (bp__tree_write_head E t).tree.head.config
          (bp__tree_write_head E t).tree.head.page_size
          (bp__tree_write_head E t).tree.head.hash)
        BP__HEAD_SIZE (bp__tree_write_head E t).ret)) ∧
    (∀ (tree : bp_tree_t W) (key : bp_key_t) (value : bp_value_t),
      (bp_set E tree key value).ret = BP_OK →
      HeadInv E (bp_set E tree key value).tree.head ∧
      (bp_set E tree key value).calls.getLast? = some (.writer_write .kNotCompressed
        (head_record (bp_set E tree key value).tree.head.offset
          (bp_set E tree key value).tree.head.config
          (bp_set E tree key value).tree.head.page_size
          (bp_set E tree key value).tree.head.hash)
        BP__HEAD_SIZE BP_OK)) ∧
    (∀ (tree : bp_tree_t W) (key : bp_key_t),
      (bp_remove E tree key).ret = BP_OK →
      HeadInv E (bp_remove E tree key).tree.head ∧
      (bp_remove E tree key).calls.getLast? = some (.writer_write .kNotCompressed
        (head_record (bp_remove E tree key).tree.head.offset
          (bp_remove E tree key).tree.head.config
          (bp_remove E tree key).tree.head.page_size
          (bp_remove E tree key).tree.head.hash)
        BP__HEAD_SIZE BP_OK)) ∧
    (∀ (tree compacted : bp_tree_t W) (r : Outcome W),
      bp_compact E tree compacted = some r →
      ∀ comp data size ret, Call.writer_write comp data size ret ∈ r.calls →
        ∃ (hd : bp__tree_head_t) (head_page : bp__page_t), HeadInv E hd ∧
          data = head_record hd.offset hd.config hd.page_size hd.hash ∧
          tree.head.page = some head_page ∧
          hd.page = some (compactCopy E tree compacted head_page).2.2.1 ∧
          hd.page_size = (compactCopy E tree compacted head_page).2.1.head.page_size ∧
          data = head_record (compactCopy E tree compacted head_page).2.2.1.offset
            (compactCopy E tree compacted head_page).2.2.1.config
            (compactCopy E tree compacted head_page).2.1.head.page_size
            (E.compute_hashl (compactCopy E tree compacted head_page).2.2.1.offset)) := by
  have after : ∀ (ev : Call) (s : bp_tree_t W), (bp__tree_write_head E s).ret = BP_OK →
      HeadInv E (bp__tree_write_head E s).tree.head ∧
      (ev :: (bp__tree_write_head E s).calls).getLast? = some (.writer_write .kNotCompressed
        (head_record (bp__tree_write_head E s).tree.head.offset
          (bp__tree_write_head E s).tree.head.config
          (bp__tree_write_head E s).tree.head.page_size
          (bp__tree_write_head E s).tree.head.hash)
        BP__HEAD_SIZE BP_OK) := by
    intro ev s hok
    obtain ⟨h1, _, h3⟩ := write_head_reached E s (write_head_ok_reached E s hok)
    rw [hok] at h3
    exact ⟨h1, getLast?_cons_of_getLast? _ _ _ h3⟩
  refine ⟨?_, ?_, ?_, ?_⟩
  · intro t ht
    obtain ⟨h1, _, h3⟩ := write_head_reached E t ht
    exact ⟨h1, h3⟩
  · intro tree key value hok
    unfold bp_set at hok ⊢
    by_cases hi : (E.page_insert tree tree.head.page key value).2 = BP_OK
    · simp only [hi, ne_eq, not_true_eq_false, if_false] at hok ⊢
      exact after _ _ hok
    · simp only [hi, ne_eq, not_false_eq_true, if_true] at hok
  · intro tree key hok
    unfold bp_remove at hok ⊢
    by_cases hi : (E.page_remove tree tree.head.page key).2 = BP_OK
    · simp only [hi, ne_eq, not_true_eq_false, if_false] at hok ⊢
      exact after _ _ hok
    · simp only [hi, ne_eq, not_false_eq_true, if_true] at hok
  · intro tree compacted r h comp data size ret hm
    obtain ⟨_, _, _, _, _, _, _, hw⟩ := bp_compact_run E tree compacted r h
    obtain ⟨hd, head_page, hinv, hdata, hpg, hroot, hsize⟩ := hw comp data size ret hm
    refine ⟨hd, head_page, hinv, hdata, hpg, hroot, hsize, ?_⟩
    obtain ⟨q, hq, hoff, hcfg, hhash⟩ := hinv
    rw [hroot] at hq
    injection hq with hq
    rw [hdata, hhash, hoff, hcfg, hsize, ← hq]

/-- C7, at concrete inputs: Store, `bp_set`, `bp_remove` and `bp_compact` on the
sample tree (the compacted root lies at offset 32 of the new file). -/
theorem store_establishes_head_invariant_witness :
    ((∃ p, (bp__tree_write_head sampleEnv sampleTree).tree.head.page = some p ∧
        (bp__tree_write_head sampleEnv sampleTree).tree.head.offset = p.offset ∧
        (bp__tree_write_head sampleEnv sampleTree).tree.head.config = p.config ∧
        (bp__tree_write_head sampleEnv sampleTree).tree.head.hash =
          sampleEnv.compute_hashl (bp__tree_write_head sampleEnv sampleTree).tree.head.offset) ∧
      (bp__tree_write_head sampleEnv sampleTree).calls.getLast? =
        some (.writer_write .kNotCompressed
          (head_record (bp__tree_write_head sampleEnv sampleTree).tree.head.offset
            (bp__tree_write_head sampleEnv sampleTree).tree.head.config
            (bp__tree_write_head sampleEnv sampleTree).tree.head.page_size
            (bp__tree_write_head sampleEnv sampleTree).tree.head.hash)
          BP__HEAD_SIZE (bp__tree_write_head sampleEnv sampleTree).ret)) ∧
    HeadInv sampleEnv (bp_set sampleEnv sampleTree ⟨1, [65]⟩ ⟨1, [66]⟩).tree.head ∧
    HeadInv sampleEnv (bp_remove sampleEnv sampleTree ⟨1, [65]⟩).tree.head ∧
    (∃ (hd : bp__tree_head_t) (head_page : bp__page_t), HeadInv sampleEnv hd ∧
      head_record 32 7 64 (sampleEnv.compute_hashl 32) =
        head_record hd.offset hd.config hd.page_size hd.hash ∧
      sampleTree.head.page = some head_page ∧
      hd.page = some (compactCopy sampleEnv sampleTree freshTree head_page).2.2.1 ∧
      hd.page_size = (compactCopy sampleEnv sampleTree freshTree head_page).2.1.head.page_size ∧
      head_record 32 7 64 (sampleEnv.compute_hashl 32) =
        head_record (compactCopy sampleEnv sampleTree freshTree head_page).2.2.1.offset
          (compactCopy sampleEnv sampleTree freshTree head_page).2.2.1.config
          (compactCopy sampleEnv sampleTree freshTree head_page).2.1.head.page_size
          (sampleEnv.compute_hashl
            (compactCopy sampleEnv sampleTree freshTree head_page).2.2.1.offset)) :=
  ⟨(store_establishes_head_invariant sampleEnv).1 sampleTree (Or.inl (by decide)),
    ((store_establishes_head_invariant sampleEnv).2.1 sampleTree ⟨1, [65]⟩ ⟨1, [66]⟩
      (by decide)).1,
    ((store_establishes_head_invariant sampleEnv).2.2.1 sampleTree ⟨1, [65]⟩ (by decide)).1,
    (store_establishes_head_invariant sampleEnv).2.2.2 sampleTree freshTree
      ((bp_compact sampleEnv sampleTree freshTree).get (by decide)) (Option.some_get _).symm
      .kNotCompressed (head_record 32 7 64 (sampleEnv.compute_hashl 32)) BP__HEAD_SIZE 0
      (by decide)⟩

/-! ### Range queries -/

/-- C8: the unfiltered range scan is a composition.  `bp_get_range` is
`bp_get_filtered_range` with the default filter, which is the page store's
range query on the current root with the same bounds, filter and callback;
the default filter returns 1 (true) for every key; and `bp_get_ranges` is
`bp_get_filtered_ranges` with the default filter. -/
theorem range_scan_is_composition (E : Env W Cb) (tree : bp_tree_t W) (start stop : bp_key_t)
    (cb : Cb) (sstart sstop : List Byte) :
    bp_get_range E tree start stop cb =
      bp_get_filtered_range E tree start stop bp__default_filter_cb cb ∧
    (∀ filter : bp_filter_cb,
      (bp_get_filtered_range E tree start stop filter cb).tree =
        (E.page_get_range tree tree.head.page start stop filter cb).1 ∧
      (bp_get_filtered_range E tree start stop filter cb).ret =
        (E.page_get_range tree tree.head.page start stop filter cb).2 ∧
      (bp_get_filtered_range E tree start stop filter cb).calls =
        [.page_get_range tree.head.page start stop
          (E.page_get_range tree tree.head.page start stop filter cb).2]) ∧
    (∀ key : bp_key_t, bp__default_filter_cb key = 1 ∧ bp__default_filter_cb key ≠ 0) ∧
    bp_get_ranges E tree sstart sstop cb =
      bp_get_filtered_ranges E tree sstart sstop bp__default_filter_cb cb :=
  ⟨rfl, fun _ => ⟨rfl, rfl, rfl⟩, fun _ => ⟨rfl, by simp [bp__default_filter_cb]⟩, rfl⟩

/-! ### The default comparator -/

theorem toInt32_sub64_sign (la lb : Nat) (ha : la < 2 ^ 64) (hb : lb < 2 ^ 64)
    (h1 : la < lb + 2 ^ 31) (h2 : lb ≤ la + 2 ^ 31) :
    (la < lb → toInt32 (sub64 la lb) < 0) ∧ (la = lb → toInt32 (sub64 la lb) = 0) ∧
    (lb < la → 0 < toInt32 (sub64 la lb)) := by
  unfold toInt32 sub64
  norm_num at *
  refine ⟨?_, ?_, ?_⟩ <;> intro h <;> split <;> omega

theorem sub64_succ (n m : Nat) (hn : n + 1 < 2 ^ 64) (hm : m + 1 < 2 ^ 64) :
    sub64 (n + 1) (m + 1) = sub64 n m := by
  unfold sub64
  norm_num at *
  omega

theorem firstDiff_nil_right (xs : List Byte) : firstDiff xs [] = none := by
  cases xs <;> rfl

theorem firstDiff_nil_left (ys : List Byte) : firstDiff [] ys = none := rfl

theorem compare_loop_eq (a b : bp_key_t) (n i : Nat) (ha : i + n ≤ a.value.length)
    (hb : i + n ≤ b.value.length) :
    compare_loop a b n i = firstDiff ((a.value.drop i).take n) ((b.value.drop i).take n) := by
  induction n generalizing i with
  | zero => simp [compare_loop, firstDiff]
  | succ n ih =>
    have hia : i < a.value.length := by omega
    have hib : i < b.value.length := by omega
    rw [List.drop_eq_getElem_cons hia, List.drop_eq_getElem_cons hib, List.take_succ_cons,
      List.take_succ_cons]
    simp only [compare_loop, firstDiff, List.getD_eq_getElem _ _ hia, List.getD_eq_getElem _ _ hib]
    rw [ih (i + 1) (by omega) (by omega)]

theorem firstDiff_take (xs ys : List Byte) (p q : Nat) :
    firstDiff (xs.take (min p q)) (ys.take (min p q)) = firstDiff (xs.take p) (ys.take q) := by
  induction xs generalizing ys p q with
  | nil => simp [firstDiff]
  | cons x xs ih =>
    cases p with
    | zero => simp [firstDiff]
    | succ p =>
      cases ys with
      | nil => simp [firstDiff_nil_right]
      | cons y ys =>
        cases q with
        | zero => simp [firstDiff_nil_right, firstDiff]
        | succ q =>
          rw [Nat.succ_min_succ]
          simp only [List.take_succ_cons, firstDiff, ih]

theorem signOf_firstDiff (A B : List Byte) (hA : A.length < 2 ^ 64) (hB : B.length < 2 ^ 64)
    (h1 : A.length < B.length + 2 ^ 31) (h2 : B.length ≤ A.length + 2 ^ 31) :
    signOf (match firstDiff A B with
      | some r => r
      | none => toInt32 (sub64 A.length B.length)) = lexOrder A B := by
  induction A generalizing B with
  | nil =>
    cases B with
    | nil =>
      have h := (toInt32_sub64_sign 0 0 (Nat.two_pow_pos 64)
        (Nat.two_pow_pos 64) (Nat.two_pow_pos 31)
        (Nat.zero_le _)).2.1 rfl
      simp only [firstDiff, lexOrder, signOf, List.length_nil, h, lt_self_iff_false, if_false,
        if_true]
    | cons y ys =>
      simp only [List.length_cons, List.length_nil] at hB h1 h2
      have h := (toInt32_sub64_sign 0 (ys.length + 1) (Nat.two_pow_pos 64) hB
        h1 h2).1 (by omega)
      simp only [firstDiff, lexOrder, signOf, List.length_nil, List.length_cons, h, if_true]
  | cons x xs ih =>
    cases B with
    | nil =>
      simp only [List.length_cons, List.length_nil] at hA h1 h2
      have h := (toInt32_sub64_sign (xs.length + 1) 0 hA (Nat.two_pow_pos 64)
        h1 h2).2.2 (by omega)
      have hn1 : ¬ toInt32 (sub64 (xs.length + 1) 0) < 0 := by omega
      have hn2 : ¬ toInt32 (sub64 (xs.length + 1) 0) = 0 := by omega
      simp only [firstDiff_nil_right, lexOrder, signOf, List.length_nil, List.length_cons, hn1, hn2,
        if_false]
    | cons y ys =>
      simp only [List.length_cons] at hA hB h1 h2
      by_cases hxy : x = y
      · subst hxy
        simp only [firstDiff, lexOrder, ne_eq, not_true_eq_false, if_false, lt_self_iff_false,
          List.length_cons, sub64_succ _ _ hA hB]
        exact ih ys (by omega) (by omega) (by omega) (by omega)
      · simp only [firstDiff, lexOrder, ne_eq, hxy, not_false_eq_true, if_true]
        rcases lt_or_gt_of_ne hxy with hlt | hgt
        · have : ¬ x > y := not_lt.mpr (le_of_lt hlt)
          simp [this, hlt, signOf]
        · have : ¬ x < y := not_lt.mpr (le_of_lt hgt)
          simp [this, hgt, signOf]

theorem default_compare_eq (a b : bp_key_t) (ha : a.wf) (hb : b.wf)
    (hmin : min a.length b.length < 2 ^ 32) :
    bp__default_compare_cb a b =
      match firstDiff a.bytes b.bytes with
      | some r => r
      | none => toInt32 (sub64 a.length b.length) := by
  unfold bp_key_t.wf at ha hb
  have hlen : (if a.length < b.length then a.length else b.length) % 2 ^ 32 =
      min a.length b.length := by
    rw [Nat.min_def]
    split <;> split <;> omega
  unfold bp__default_compare_cb
  simp only [hlen]
  rw [compare_loop_eq a b _ 0 (by omega) (by omega), List.drop_zero, List.drop_zero,
    firstDiff_take]
  rfl

/-- On keys whose lengths differ by less than 2^31 (the shorter one below 2^32)
the sign of the default comparator is the lexicographic order of the bytes. -/
theorem default_compare_sign (a b : bp_key_t) (ha : a.wf) (hb : b.wf)
    (h64a : a.length < 2 ^ 64) (h64b : b.length < 2 ^ 64)
    (hmin : min a.length b.length < 2 ^ 32)
    (h1 : a.length < b.length + 2 ^ 31) (h2 : b.length ≤ a.length + 2 ^ 31) :
    signOf (bp__default_compare_cb a b) = lexOrder a.bytes b.bytes := by
  rw [default_compare_eq a b ha hb hmin]
  unfold bp_key_t.wf at ha hb
  have hA : a.bytes.length = a.length := by simp [bp_key_t.bytes, ha]
  have hB : b.bytes.length = b.length := by simp [bp_key_t.bytes, hb]
  have := signOf_firstDiff a.bytes b.bytes (by omega) (by omega) (by omega) (by omega)
  rw [hA, hB] at this
  exact this

theorem lexOrder_eq_iff (A B : List Byte) : lexOrder A B = .eq ↔ A = B := by
  induction A generalizing B with
  | nil => cases B <;> simp [lexOrder]
  | cons x xs ih =>
    cases B with
    | nil => simp [lexOrder]
    | cons y ys =>
      simp only [lexOrder, List.cons.injEq]
      by_cases h1 : x < y
      · simp [h1, ne_of_lt h1]
      · by_cases h2 : y < x
        · simp [h1, h2, (ne_of_lt h2).symm]
        · have : x = y := le_antisymm (not_lt.mp h2) (not_lt.mp h1)
          simp [h1, h2, this, ih]

theorem signOf_eq_iff (r : Int) : signOf r = .eq ↔ r = 0 := by
  unfold signOf
  split
  · simp; omega
  · split <;> simp [*]

theorem strlen_cstr (s rs : List Byte) (hs : (0 : Byte) ∉ s) :
    strlen (s ++ 0 :: rs) = s.length := by
  unfold strlen
  induction s with
  | nil => simp
  | cons x xs ih =>
    have hx : x ≠ 0 := fun h => hs (by simp [h])
    have hxs : (0 : Byte) ∉ xs := fun h => hs (List.mem_cons_of_mem _ h)
    simp only [List.cons_append, List.takeWhile_cons, hx, ne_eq, not_false_eq_true,
      decide_True, if_true, List.length_cons, ih hxs]

theorem strcmp_sign (s t rs rt : List Byte) (hs : (0 : Byte) ∉ s) (ht : (0 : Byte) ∉ t) :
    signOf (strcmp (s ++ 0 :: rs) (t ++ 0 :: rt)) = lexOrder (s ++ [0]) (t ++ [0]) := by
  induction s generalizing t with
  | nil =>
    cases t with
    | nil => simp [strcmp, lexOrder, signOf]
    | cons y ys =>
      have hy : y ≠ 0 := fun h => ht (by simp [h])
      have hpos : (0 : Byte) < y := by
        rcases lt_or_gt_of_ne hy with h | h
        · exact absurd h (by simp)
        · exact h
      simp [strcmp, lexOrder, signOf, hy.symm, hpos]
  | cons x xs ih =>
    have hx : x ≠ 0 := fun h => hs (by simp [h])
    have hxs : (0 : Byte) ∉ xs := fun h => hs (List.mem_cons_of_mem _ h)
    have hxpos : (0 : Byte) < x := by
      rcases lt_or_gt_of_ne hx with h | h
      · exact absurd h (by simp)
      · exact h
    cases t with
    | nil =>
      have hn : ¬ x < 0 := by simp
      simp [strcmp, lexOrder, signOf, hx, hn, hxpos]
    | cons y ys =>
      have hys : (0 : Byte) ∉ ys := fun h => ht (List.mem_cons_of_mem _ h)
      by_cases hxy : x = y
      · subst hxy
        simp only [List.cons_append, strcmp, lexOrder, ne_eq, not_true_eq_false, if_false, hx,
          lt_self_iff_false]
        exact ih ys hxs hys
      · rcases lt_or_gt_of_ne hxy with hlt | hgt
        · simp [strcmp, lexOrder, signOf, hxy, hlt]
        · have hn : ¬ x < y := not_lt.mpr (le_of_lt hgt)
          simp [strcmp, lexOrder, signOf, hxy, hn, hgt]

theorem cstr_key_spec (s rs : List Byte) (hs : (0 : Byte) ∉ s) (hl : s.length < 2 ^ 31) :
    (cstr_key (s ++ 0 :: rs)).length = s.length + 1 ∧
    (cstr_key (s ++ 0 :: rs)).value = s ++ 0 :: rs ∧
    (cstr_key (s ++ 0 :: rs)).bytes = s ++ [0] ∧
    (cstr_key (s ++ 0 :: rs)).wf := by
  have h31 : (2 : Nat) ^ 31 < 2 ^ 64 := Nat.pow_lt_pow_right (by decide) (by decide)
  have hlen : (cstr_key (s ++ 0 :: rs)).length = s.length + 1 := by
    simp only [cstr_key, strlen_cstr s rs hs]
    exact Nat.mod_eq_of_lt (by omega)
  refine ⟨hlen, rfl, ?_, ?_⟩
  · unfold bp_key_t.bytes
    rw [hlen]
    show List.take (s.length + 1) (s ++ 0 :: rs) = s ++ [0]
    rw [List.take_append_eq_append_take]
    simp
  · unfold bp_key_t.wf
    rw [hlen]
    show s.length + 1 ≤ (s ++ 0 :: rs).length
    simp

/-- C10: the string wrappers all build the key `cstr_key` of their C string
(`bp_sets` for the value as well), which for a string `s` without NUL, followed
in memory by its NUL, has length `strlen s + 1` and the bytes of `s` followed
by the NUL; and for two such strings of lengths below 2^31 the default
comparator on their keys has the sign of `strcmp`, and is zero exactly when
the strings are equal. -/
theorem string_wrappers_order (E : Env W Cb) (tree : bp_tree_t W) (s t rs rt : List Byte)
    (hs : (0 : Byte) ∉ s) (ht : (0 : Byte) ∉ t) (hls : s.length < 2 ^ 31)
    (hlt : t.length < 2 ^ 31) :
    (∀ k v : List Byte, bp_sets E tree k v = bp_set E tree (cstr_key k) (cstr_key v)) ∧
    (∀ k : List Byte,
      (bp_gets E tree k).1.tree = (bp_get E tree (cstr_key k)).1.tree ∧
      (bp_gets E tree k).1.ret = (bp_get E tree (cstr_key k)).1.ret ∧
      (bp_gets E tree k).1.calls = (bp_get E tree (cstr_key k)).1.calls) ∧
    (∀ k : List Byte, bp_removes E tree k = bp_remove E tree (cstr_key k)) ∧
    (∀ (a b : List Byte) (filter : bp_filter_cb) (cb : Cb),
      bp_get_filtered_ranges E tree a b filter cb =
        bp_get_filtered_range E tree (cstr_key a) (cstr_key b) filter cb) ∧
    (cstr_key (s ++ 0 :: rs)).length = strlen (s ++ 0 :: rs) + 1 ∧
    (cstr_key (s ++ 0 :: rs)).bytes = s ++ [0] ∧
    signOf (bp__default_compare_cb (cstr_key (s ++ 0 :: rs)) (cstr_key (t ++ 0 :: rt))) =
      signOf (strcmp (s ++ 0 :: rs) (t ++ 0 :: rt)) ∧
    (bp__default_compare_cb (cstr_key (s ++ 0 :: rs)) (cstr_key (t ++ 0 :: rt)) = 0 ↔ s = t) := by
  obtain ⟨sl, _, sb, sw⟩ := cstr_key_spec s rs hs hls
  obtain ⟨tl, _, tb, tw⟩ := cstr_key_spec t rt ht hlt
  have h31 : (2 : Nat) ^ 31 < 2 ^ 32 := Nat.pow_lt_pow_right (by decide) (by decide)
  have h32 : (2 : Nat) ^ 32 < 2 ^ 64 := Nat.pow_lt_pow_right (by decide) (by decide)
  have hsign := default_compare_sign (cstr_key (s ++ 0 :: rs)) (cstr_key (t ++ 0 :: rt)) sw tw
    (by omega) (by omega) (by rw [sl, tl, Nat.min_def]; split <;> omega) (by omega) (by omega)
  rw [sb, tb] at hsign
  refine ⟨fun _ _ => rfl, ?_, fun _ => rfl, fun _ _ _ _ => rfl, ?_, sb, ?_, ?_⟩
  · intro k
    have hg : bp_gets E tree k =
        if (bp_get E tree (cstr_key k)).1.ret ≠ BP_OK then ((bp_get E tree (cstr_key k)).1, none)
        else (⟨(bp_get E tree (cstr_key k)).1.tree, BP_OK, (bp_get E tree (cstr_key k)).1.calls⟩,
          some (bp_get E tree (cstr_key k)).2.value) := rfl
    rw [hg]
    by_cases h : (bp_get E tree (cstr_key k)).1.ret = BP_OK
    · rw [if_neg (not_not.mpr h)]
      exact ⟨rfl, h.symm, rfl⟩
    · rw [if_pos h]
      exact ⟨rfl, rfl, rfl⟩
  · rw [sl, strlen_cstr s rs hs]
  · rw [hsign, strcmp_sign s t rs rt hs ht]
  · rw [← signOf_eq_iff, hsign, lexOrder_eq_iff]
    constructor
    · intro h
      exact List.append_cancel_right h
    · intro h
      rw [h]

/-- C10, at concrete strings: "ab" and "abc", each followed by its NUL. -/
theorem string_wrappers_order_witness :
    (cstr_key ([97, 98] ++ 0 :: [])).bytes = [97, 98] ++ [0] ∧
    signOf (bp__default_compare_cb (cstr_key ([97, 98] ++ 0 :: []))
        (cstr_key ([97, 98, 99] ++ 0 :: []))) =
      signOf (strcmp ([97, 98] ++ 0 :: []) ([97, 98, 99] ++ 0 :: [])) ∧
    (bp__default_compare_cb (cstr_key ([97, 98] ++ 0 :: []))
      (cstr_key ([97, 98, 99] ++ 0 :: [])) = 0 ↔ ([97, 98] : List Byte) = [97, 98, 99]) :=
  ⟨(string_wrappers_order sampleEnv sampleTree [97, 98] [97, 98, 99] [] [] (by decide)
      (by decide) (by decide) (by decide)).2.2.2.2.2.1,
    (string_wrappers_order sampleEnv sampleTree [97, 98] [97, 98, 99] [] [] (by decide)
      (by decide) (by decide) (by decide)).2.2.2.2.2.2.1,
    (string_wrappers_order sampleEnv sampleTree [97, 98] [97, 98, 99] [] [] (by decide)
      (by decide) (by decide) (by decide)).2.2.2.2.2.2.2⟩

/-- C4, at the failing input: the key of 2^31 zero bytes is lexicographically
greater than the empty key (the empty key is a proper prefix of it), yet the
default comparator returns -2147483648, a negative result: the length
difference 2^31 does not fit the 32-bit `int` it is returned in. -/
theorem default_compare_negative_on_longer_key :
    bigKey.wf ∧ emptyKey.wf ∧
    lexOrder bigKey.bytes emptyKey.bytes = .gt ∧
    bp__default_compare_cb bigKey emptyKey = -2147483648 ∧
    signOf (bp__default_compare_cb bigKey emptyKey) = .lt := by
  refine ⟨?_, ?_, by decide, by decide, by decide⟩
  · show 2 ^ 31 ≤ (List.replicate (2 ^ 31) (0 : Byte)).length
    rw [List.length_replicate]
  · exact Nat.le_refl 0

/-- C5, at the failing input: on the key of 2^31 zero bytes and the empty key
the default comparator is negative in both directions, so the two results do
not have opposite signs. -/
theorem default_compare_not_antisymmetric :
    bp__default_compare_cb bigKey emptyKey < 0 ∧
    bp__default_compare_cb emptyKey bigKey < 0 := by
  decide

end Bplus
